import Mathlib

/-!
Verification of the Azrael physics coordinator ("Leonard") against its
natural-language specification.

The development shallowly embeds the relevant parts of the repository:

* `azrael/leonard.py` : the sweep-and-prune broad phase (`sweeping`,
  `computeCollisionSetsAABB`), the Euler tick of `LeonardBase.step`, and the
  force handling of the worker classes.
* `azrael/physics_interface.py` : the spawn command queue (`addCmdSpawn`).
* `azrael/bullet/bullet_data.py` : the `BulletData` state record.
* The work-package registry (`azrael/bullet/btInterface.py`) and the force
  grid (`azrael/vectorgrid.py`) are not part of the source tree, only their
  tests and callers are; those two components are modelled from the
  specification text, as marked in their doc comments.

Numeric conventions: the Python code computes with IEEE-754 doubles; the
embedding uses rationals, which model the ordering and arithmetic exactly on
every input appearing in the claims and scenarios.  Machine integers
(tokens, counters, labels) are embedded as `Int`/`Nat`; no arithmetic in the
embedded code paths can overflow 64 bits on the inputs considered.
-/

/-- Three-component vector of rationals, modelling a NumPy float64 3-vector. -/
structure Vec3 where
  x : ℚ
  y : ℚ
  z : ℚ
deriving DecidableEq

/-- Componentwise addition, modelling NumPy elementwise `+`. -/
def Vec3.add (a b : Vec3) : Vec3 := ⟨a.x + b.x, a.y + b.y, a.z + b.z⟩

/-- Scalar multiplication, modelling NumPy `c * v`. -/
def Vec3.smul (c : ℚ) (v : Vec3) : Vec3 := ⟨c * v.x, c * v.y, c * v.z⟩

/-- The zero vector. -/
def Vec3.zero : Vec3 := ⟨0, 0, 0⟩

/-- Four-component vector (orientation quaternion or collision-shape tag). -/
structure Vec4 where
  a : ℚ
  b : ℚ
  c : ℚ
  d : ℚ
deriving DecidableEq

/-- State-variable record of one object, from `BulletData` in
`azrael/bullet/bullet_data.py` (fields `radius scale imass restitution
orientation position velocityLin velocityRot cshape`). -/
structure BulletData where
  radius : ℚ
  scale : ℚ
  imass : ℚ
  restitution : ℚ
  orientation : Vec4
  position : Vec3
  velocityLin : Vec3
  velocityRot : Vec3
  cshape : Vec4
deriving DecidableEq

/-- Default `BulletData()` constructor values from `bullet_data.py`. -/
def defaultBulletData : BulletData :=
  { radius := 1
    scale := 1
    imass := 1
    restitution := 9/10
    orientation := ⟨0, 0, 0, 1⟩
    position := Vec3.zero
    velocityLin := Vec3.zero
    velocityRot := Vec3.zero
    cshape := ⟨0, 1, 1, 1⟩ }

/-- Object identifier: an 8-byte token, modelled as a list of byte values. -/
def ObjID : Type := List ℕ

instance : DecidableEq ObjID := by
  unfold ObjID
  infer_instance

/-- Length of an object ID in bytes (`config.LEN_ID`). -/
def LEN_ID : ℕ := 8

/-!
### Spawn command queue (`addCmdSpawn`, `azrael/physics_interface.py`)

The Mongo collection `CmdSpawn` holds at most one document per `objid`; the
`find_and_modify` with `$setOnInsert` and `upsert=True` inserts the new
document only when no document with that `objid` exists, and in either case
returns the document now stored.  `addCmdSpawn` then reports success exactly
when the stored serialised state equals the one just supplied.  The queue is
modelled as an association list in insertion order.
-/

/-- One queued spawn command (`{'objid': objID, 'sv': sv, 'AABB': aabb}`). -/
structure SpawnCmd where
  objid : ObjID
  sv : BulletData
  aabb : ℚ
deriving DecidableEq

/-- Embedding of `addCmdSpawn(objID, sv, aabb)` acting on the spawn queue.
Returns the success flag together with the new queue contents.  The
serialised comparison `doc['sv'] == data['sv']` of JSON dictionaries is
exact field equality, embedded as `BulletData` equality. -/
def addCmdSpawn (objID : ObjID) (sv : BulletData) (aabb : ℚ)
    (queue : List SpawnCmd) : Bool × List SpawnCmd :=
  if objID.length ≠ LEN_ID then (false, queue)
  else if aabb < 0 then (false, queue)
  else
    match queue.find? (fun c => c.objid = objID) with
    | some c => (decide (c.sv = sv), queue)
    | none => (true, queue ++ [⟨objID, sv, aabb⟩])

/-!
### LeonardBase.step (`azrael/leonard.py`, lines 183-226)

The tick retrieves every object, and for each object fetches its queued
force; when no force document exists (`getForceAndTorque` not ok) the object
is skipped entirely.  Otherwise the linear velocity is incremented by
`force * 0.001`, the position by `dt` times the new velocity, and any
suggested position record overrides position, velocity and orientation
before being cleared.  The store, force queue and suggestion store are
modelled as association lists; `btInterface` itself is absent from the
source tree, so the lookup results are modelled after their use sites and
the `test_suggest_position` test.
-/

/-- A suggested-position record with its optional fields (`tmp.pos`,
`tmp.vel`, `tmp.orient` in `LeonardBase.step`). -/
structure SuggestedPos where
  pos : Option Vec3
  vel : Option Vec3
  orient : Option Vec4
deriving DecidableEq

/-- World state visible to `LeonardBase.step`: object store, queued
force/torque documents, and suggested positions. -/
structure WorldState where
  objects : List (ObjID × BulletData)
  forces : List (ObjID × Vec3 × Vec3)
  suggestions : List (ObjID × SuggestedPos)

/-- Per-object body of the loop in `LeonardBase.step`, given the result of
the force lookup and the suggestion lookup: Euler update with coupling
`0.001`, then suggested overrides. -/
def stepOne (dt : ℚ) (force : Vec3) (sug : Option SuggestedPos)
    (sv : BulletData) : BulletData :=
  let v := sv.velocityLin.add (force.smul (1/1000))
  let p := sv.position.add (v.smul dt)
  let sv1 := { sv with velocityLin := v, position := p }
  match sug with
  | none => sv1
  | some s =>
      { sv1 with
        position := s.pos.getD sv1.position
        velocityLin := s.vel.getD sv1.velocityLin
        orientation := s.orient.getD sv1.orientation }

/-- Loop body of `LeonardBase.step` for one store entry: fetch the queued
force document (skip the object when there is none), then Euler-integrate
with the suggestion lookup. -/
def stepMapFun (dt : ℚ) (w : WorldState) (p : ObjID × BulletData) :
    ObjID × BulletData :=
  match (w.forces.find? (fun f => f.1 = p.1)).map Prod.snd with
  | none => p
  | some ft =>
      (p.1, stepOne dt ft.1 ((w.suggestions.find? (fun s => s.1 = p.1)).map Prod.snd) p.2)

/-- Embedding of one call to `LeonardBase.step`: every object with a queued
force document is Euler-integrated (and its suggestion consumed); objects
without a force document are skipped unchanged (`continue`). -/
def step (dt : ℚ) (w : WorldState) : WorldState :=
  { objects := w.objects.map (stepMapFun dt w)
    forces := w.forces
    suggestions := w.suggestions.filter (fun s =>
      ((w.forces.find? (fun f => f.1 = s.1)).map Prod.snd).isNone
        ∨ (w.objects.find? (fun p => p.1 = s.1)).isNone) }

/-!
### Worker force coupling (`azrael/leonard.py`)

The Bullet-backed workers (`LeonardBulletMonolithic.step`,
`LeonardBulletSweeping.step`, `LeonardBulletSweepingMultiST.processWorkPackage`,
`LeonardBulletSweepingMultiMTWorker.processWorkPackage`,
`LeonardRMQWorkerBullet.advanceSimulation`) all call
`applyForceAndTorque(btID, 0.01 * force, torque)`, so the force handed to
the Bullet integrator is the central force scaled by `0.01`.  The
Euler-based `LeonardRMQWorker.advanceSimulation` (lines 942-981) instead
performs `sv.velocityLin[:] += force * 0.001`.
-/

/-- The force argument a Bullet-backed worker passes to
`applyForceAndTorque`: `0.01 * force` (e.g. line 525 of `leonard.py`). -/
def bulletWorkerAppliedForce (centralForce : Vec3) : Vec3 :=
  centralForce.smul (1/100)

/-- One work-package payload entry (`obj` in `advanceSimulation`): state
snapshot, central force, torque and optional suggested position. -/
structure WPObj where
  id : ObjID
  sv : BulletData
  central_force : Vec3
  torque : Vec3
  sugPos : Option Vec3
deriving DecidableEq

/-- Per-object body of `LeonardRMQWorker.advanceSimulation`: velocity is
incremented by `force * 0.001`, position by `dt` times the new velocity,
then a suggested position (if any) overrides the position. -/
def rmqAdvanceObj (dt : ℚ) (obj : WPObj) : BulletData :=
  let v := obj.sv.velocityLin.add (obj.central_force.smul (1/1000))
  let p := obj.sv.position.add (v.smul dt)
  let sv1 := { obj.sv with velocityLin := v, position := p }
  match obj.sugPos with
  | none => sv1
  | some sp => { sv1 with position := sp }

/-- Embedding of the result dictionary built by
`LeonardRMQWorker.advanceSimulation` over a work list. -/
def rmqAdvanceSimulation (dt : ℚ) (worklist : List WPObj) :
    List (ObjID × BulletData) :=
  worklist.map (fun obj => (obj.id, rmqAdvanceObj dt obj))

/-!
### Work-package registry (spec-modelled)

The registry implementation (`createWorkPackage`, `getWorkPackage`,
`updateWorkPackage`, `countWorkPackages` in `azrael/bullet/btInterface.py`)
is not part of the source tree; only its tests and callers are.  It is
modelled from the specification, section 4.5.
-/

/-- Result of a commit attempt, from the specification:
`commit(package_id, token, results) -> ok | bad_token | unknown |
already_committed`. -/
inductive CommitResult where
  | ok
  | badToken
  | unknown
  | alreadyCommitted
deriving DecidableEq

/-- Modelled from the spec: one work package of the registry (section 4.5 of
the specification; `btInterface.py` is absent from src).  `completed` is the
`status` field restricted to the two spec states pending/completed. -/
structure WorkPackage where
  wpid : ℕ
  token : ℤ
  dt : ℚ
  maxsteps : ℕ
  ids : List ObjID
  completed : Bool
deriving DecidableEq

/-- Modelled from the spec: registry state, holding the object store the
packages read from and write to, the package list, and the monotonic
package-id counter ("id: monotonically increasing from 1"). -/
structure Registry where
  store : List (ObjID × BulletData)
  packages : List WorkPackage
  counter : ℕ

/-- Modelled from the spec: a fresh registry at the start of a run, over a
given object store; no packages yet and the counter at 0 so that the first
package receives id 1. -/
def initRegistry (store : List (ObjID × BulletData)) : Registry :=
  ⟨store, [], 0⟩

/-- Modelled from the spec: `create(ids, token, dt, max_substeps) ->
package_id | error`, with an error when `ids` is empty or any id is unknown
to the object store; on success the package id is the next counter value. -/
def createWorkPackage (r : Registry) (ids : List ObjID) (token : ℤ)
    (dt : ℚ) (maxsteps : ℕ) : Option ℕ × Registry :=
  if ids.isEmpty then (none, r)
  else if ids.any (fun i => (r.store.find? (fun p => p.1 = i)).isNone) then
    (none, r)
  else
    let wpid := r.counter + 1
    (some wpid,
      { r with
        counter := wpid
        packages := r.packages ++ [⟨wpid, token, dt, maxsteps, ids, false⟩] })

/-- Modelled from the spec: `commit(package_id, token, results)`.  The token
must match the one recorded on the package, a missing package yields
`unknown`, a second commit `already_committed`; on success the results are
written to the store (results for ids no longer present are silently
ignored) and the package moves to completed. -/
def updateWorkPackage (r : Registry) (wpid : ℕ) (token : ℤ)
    (results : List (ObjID × BulletData)) : CommitResult × Registry :=
  match r.packages.find? (fun p => p.wpid = wpid) with
  | none => (CommitResult.unknown, r)
  | some p =>
      if p.completed then (CommitResult.alreadyCommitted, r)
      else if p.token ≠ token then (CommitResult.badToken, r)
      else
        (CommitResult.ok,
          { r with
            store := r.store.map (fun q =>
              match results.find? (fun res => res.1 = q.1) with
              | some res => (q.1, res.2)
              | none => q)
            packages := r.packages.map (fun q =>
              if q.wpid = wpid then { q with completed := true } else q) })

/-!
### Force grid (spec-modelled)

`azrael/vectorgrid.py` is absent from the source tree; only its test file
is.  The grid is modelled from the specification, section 4.3: a sparse map
from the integer triple obtained by flooring the position divided by the
granularity, with missing cells reading as the zero vector.
-/

/-- Modelled from the spec: one named force grid with its vector dimension,
granularity and sparse cell map (section 4.3; `vectorgrid.py` is absent from
src). -/
structure VectorGrid where
  vecDim : ℕ
  granularity : ℚ
  cells : List ((ℤ × ℤ × ℤ) × List ℚ)

/-- Modelled from the spec: the cell index of a position, floor of the
position divided by the granularity, per axis. -/
def gridIndex (g : ℚ) (p : Vec3) : ℤ × ℤ × ℤ :=
  (⌊p.x / g⌋, ⌊p.y / g⌋, ⌊p.z / g⌋)

/-- Modelled from the spec: sampling one position of a grid
(`get_values`): the stored cell vector at the floored index, or a zero
vector of the vector dimension when no cell is stored there. -/
def getValuesOne (grid : VectorGrid) (p : Vec3) : List ℚ :=
  match grid.cells.find? (fun c => c.1 = gridIndex grid.granularity p) with
  | some c => c.2
  | none => List.replicate grid.vecDim 0

/-- Modelled from the spec: `get_values(name, [pos])` over a position list. -/
def getValues (grid : VectorGrid) (positions : List Vec3) : List (List ℚ) :=
  positions.map (getValuesOne grid)

/-!
### Claims about the spawn queue, the tick, the workers, the registry and
the grid
-/

/-- C4: re-spawning an object id with a state identical to the queued one
succeeds as a no-op; spawning the same id with a differing state fails, and
after the failed attempt the queue still contains the originally spawned
entry unchanged. -/
theorem C4_addCmdSpawn_duplicate (objID : ObjID) (svA svB : BulletData)
    (aabb : ℚ) (q0 : List SpawnCmd)
    (hlen : objID.length = LEN_ID) (haabb : 0 ≤ aabb)
    (hfresh : q0.find? (fun c => c.objid = objID) = none)
    (hne : svA ≠ svB) :
    addCmdSpawn objID svA aabb q0 = (true, q0 ++ [⟨objID, svA, aabb⟩]) ∧
    addCmdSpawn objID svA aabb (q0 ++ [⟨objID, svA, aabb⟩]) =
      (true, q0 ++ [⟨objID, svA, aabb⟩]) ∧
    addCmdSpawn objID svB aabb (q0 ++ [⟨objID, svA, aabb⟩]) =
      (false, q0 ++ [⟨objID, svA, aabb⟩]) ∧
    (⟨objID, svA, aabb⟩ : SpawnCmd) ∈ q0 ++ [⟨objID, svA, aabb⟩] := by
  have hfound :
      (q0 ++ [(⟨objID, svA, aabb⟩ : SpawnCmd)]).find? (fun c => c.objid = objID) =
        some ⟨objID, svA, aabb⟩ := by
    rw [List.find?_append, hfresh]
    simp
  refine ⟨?_, ?_, ?_, ?_⟩
  · simp [addCmdSpawn, hlen, not_lt.mpr haabb, hfresh]
  · simp [addCmdSpawn, hlen, not_lt.mpr haabb, hfound]
  · simp [addCmdSpawn, hlen, not_lt.mpr haabb, hfound, hne]
  · simp

/-- Witness for C4 at a concrete input: id of length 8, default state versus
a state with a different radius, over the empty queue. -/
theorem C4_witness :
    (List.replicate 8 0).length = LEN_ID ∧
    addCmdSpawn (List.replicate 8 0) defaultBulletData 1 [] =
      (true, [⟨List.replicate 8 0, defaultBulletData, 1⟩]) ∧
    addCmdSpawn (List.replicate 8 0) { defaultBulletData with radius := 2 } 1
        [⟨List.replicate 8 0, defaultBulletData, 1⟩] =
      (false, [⟨List.replicate 8 0, defaultBulletData, 1⟩]) := by
  have h := C4_addCmdSpawn_duplicate (List.replicate 8 0) defaultBulletData
    { defaultBulletData with radius := 2 } 1 [] (by decide) (by norm_num)
    (by rfl) (by decide)
  exact ⟨by decide, by simpa using h.1, by simpa using h.2.2.1⟩

/-- C10: `addCmdSpawn` validates before enqueuing: an id that is not exactly
8 bytes long, or a negative bounding radius, is rejected with the queue left
untouched, while a bounding radius of exactly 0 passes validation and is
enqueued for a fresh id. -/
theorem C10_addCmdSpawn_validation (objID : ObjID) (sv : BulletData)
    (aabb : ℚ) (q : List SpawnCmd) :
    (objID.length ≠ LEN_ID → addCmdSpawn objID sv aabb q = (false, q)) ∧
    (aabb < 0 → addCmdSpawn objID sv aabb q = (false, q)) ∧
    (objID.length = LEN_ID → q.find? (fun c => c.objid = objID) = none →
      addCmdSpawn objID sv 0 q = (true, q ++ [⟨objID, sv, 0⟩])) := by
  refine ⟨?_, ?_, ?_⟩
  · intro h
    simp [addCmdSpawn, h]
  · intro h
    by_cases hlen : objID.length = LEN_ID
    · simp [addCmdSpawn, hlen, h]
    · simp [addCmdSpawn, hlen]
  · intro hlen hfresh
    norm_num [addCmdSpawn, hlen, hfresh]

/-- Witness for C10 at concrete inputs: a 3-byte id is rejected, a negative
radius is rejected, and radius 0 with an 8-byte fresh id is accepted. -/
theorem C10_witness :
    addCmdSpawn [1, 2, 3] defaultBulletData 1 [] = (false, []) ∧
    addCmdSpawn (List.replicate 8 0) defaultBulletData (-1) [] = (false, []) ∧
    addCmdSpawn (List.replicate 8 0) defaultBulletData 0 [] =
      (true, [⟨List.replicate 8 0, defaultBulletData, 0⟩]) := by
  refine ⟨?_, ?_, ?_⟩
  · exact (C10_addCmdSpawn_validation [1, 2, 3] defaultBulletData 1 []).1 (by decide)
  · exact (C10_addCmdSpawn_validation (List.replicate 8 0) defaultBulletData (-1) []).2.1
      (by norm_num)
  · simpa using (C10_addCmdSpawn_validation (List.replicate 8 0) defaultBulletData 0 []).2.2
      (by decide) rfl

/-- C5: creating a work package fails on an empty id list and when any id is
absent from the object store; on success it returns the next value of the
monotonic package-id counter, which starts at 1 for the first package of a
run. -/
theorem C5_createWorkPackage (r : Registry) (s : List (ObjID × BulletData))
    (ids : List ObjID) (token : ℤ) (dt : ℚ) (ms : ℕ) :
    (ids = [] → createWorkPackage r ids token dt ms = (none, r)) ∧
    ((∃ i ∈ ids, (r.store.find? (fun p => p.1 = i)).isNone) →
      createWorkPackage r ids token dt ms = (none, r)) ∧
    (ids ≠ [] → (∀ i ∈ ids, ¬(r.store.find? (fun p => p.1 = i)).isNone) →
      (createWorkPackage r ids token dt ms).1 = some (r.counter + 1) ∧
      (createWorkPackage r ids token dt ms).2.counter = r.counter + 1) ∧
    (ids ≠ [] → (∀ i ∈ ids, ¬((initRegistry s).store.find? (fun p => p.1 = i)).isNone) →
      (createWorkPackage (initRegistry s) ids token dt ms).1 = some 1) := by
  refine ⟨?_, ?_, ?_, ?_⟩
  · intro h
    simp [createWorkPackage, h]
  · intro h
    have hne : ids ≠ [] := by
      rcases h with ⟨i, hi, _⟩
      exact fun hnil => by simp [hnil] at hi
    have hany : ids.any (fun i => (r.store.find? (fun p => p.1 = i)).isNone) = true := by
      rw [List.any_eq_true]
      rcases h with ⟨i, hi, hnone⟩
      exact ⟨i, hi, by simpa using hnone⟩
    simp [createWorkPackage, List.isEmpty_iff, hne, hany]
  · intro hne hall
    have hany : ids.any (fun i => (r.store.find? (fun p => p.1 = i)).isNone) = false := by
      rw [Bool.eq_false_iff]
      intro hc
      rcases List.any_eq_true.mp hc with ⟨i, hi, hnone⟩
      exact hall i hi (by simpa using hnone)
    constructor <;> simp [createWorkPackage, List.isEmpty_iff, hne, hany]
  · intro hne hall
    have hany : ids.any (fun i => ((initRegistry s).store.find? (fun p => p.1 = i)).isNone) = false := by
      rw [Bool.eq_false_iff]
      intro hc
      rcases List.any_eq_true.mp hc with ⟨i, hi, hnone⟩
      exact hall i hi (by simpa using hnone)
    simp only [initRegistry] at hany
    simp [createWorkPackage, List.isEmpty_iff, hne, hany, initRegistry]

/-- Witness for C5 at concrete inputs: the empty id list fails, an unknown
id fails, and the first package of a run over a one-object store receives
package id 1. -/
theorem C5_witness :
    createWorkPackage (initRegistry [([1], defaultBulletData)]) [] 1 1 2 =
      (none, initRegistry [([1], defaultBulletData)]) ∧
    createWorkPackage (initRegistry [([1], defaultBulletData)]) [[7]] 1 1 2 =
      (none, initRegistry [([1], defaultBulletData)]) ∧
    (createWorkPackage (initRegistry [([1], defaultBulletData)]) [[1]] 1 1 2).1 =
      some 1 := by
  refine ⟨?_, ?_, ?_⟩
  · exact (C5_createWorkPackage (initRegistry [([1], defaultBulletData)])
      [([1], defaultBulletData)] [] 1 1 2).1 rfl
  · exact (C5_createWorkPackage (initRegistry [([1], defaultBulletData)])
      [([1], defaultBulletData)] [[7]] 1 1 2).2.1 ⟨[7], by simp, by decide⟩
  · exact (C5_createWorkPackage (initRegistry [([1], defaultBulletData)])
      [([1], defaultBulletData)] [[1]] 1 1 2).2.2.2 (by decide) (by decide)

/-- The completed-flag update of a successful commit does not change which
package ids are present. -/
theorem wpid_of_markCompleted (wpid : ℕ) (q : WorkPackage) :
    (if q.wpid = wpid then { q with completed := true } else q).wpid = q.wpid := by
  split <;> rfl

/-- Helper: a commit attempt on a package already marked completed is
rejected as `already_committed` and leaves the registry unchanged. -/
theorem updWP_found_completed (r : Registry) (wpid : ℕ) (token : ℤ)
    (results : List (ObjID × BulletData)) (p : WorkPackage)
    (hfind : r.packages.find? (fun p => p.wpid = wpid) = some p)
    (hcomp : p.completed = true) :
    updateWorkPackage r wpid token results = (CommitResult.alreadyCommitted, r) := by
  simp [updateWorkPackage, hfind, hcomp]

/-- C2: a commit (`updateWorkPackage`) succeeds exactly when the package
exists, has not been committed before, and the supplied token matches the
recorded one; a wrong token fails, a missing package fails, a second commit
of a committed package fails, every failed commit leaves the registry (and
hence every stored object state) unchanged, and after one successful commit
every further commit of that package fails without touching the store. -/
theorem C2_updateWorkPackage (r : Registry) (wpid : ℕ) (token : ℤ)
    (results : List (ObjID × BulletData)) :
    (r.packages.find? (fun p => p.wpid = wpid) = none →
      updateWorkPackage r wpid token results = (CommitResult.unknown, r)) ∧
    (∀ p, r.packages.find? (fun p => p.wpid = wpid) = some p →
      p.completed = true →
      updateWorkPackage r wpid token results = (CommitResult.alreadyCommitted, r)) ∧
    (∀ p, r.packages.find? (fun p => p.wpid = wpid) = some p →
      p.completed = false → p.token ≠ token →
      updateWorkPackage r wpid token results = (CommitResult.badToken, r)) ∧
    (∀ p, r.packages.find? (fun p => p.wpid = wpid) = some p →
      p.completed = false → p.token = token →
      (updateWorkPackage r wpid token results).1 = CommitResult.ok) ∧
    ((updateWorkPackage r wpid token results).1 ≠ CommitResult.ok →
      (updateWorkPackage r wpid token results).2 = r) ∧
    (∀ p, r.packages.find? (fun p => p.wpid = wpid) = some p →
      p.completed = false → p.token = token →
      ∀ t2 res2,
        updateWorkPackage (updateWorkPackage r wpid token results).2 wpid t2 res2 =
          (CommitResult.alreadyCommitted, (updateWorkPackage r wpid token results).2)) := by
  refine ⟨?_, ?_, ?_, ?_, ?_, ?_⟩
  · intro h
    simp [updateWorkPackage, h]
  · intro p hfind hcomp
    simp [updateWorkPackage, hfind, hcomp]
  · intro p hfind hcomp htok
    simp [updateWorkPackage, hfind, hcomp, htok]
  · intro p hfind hcomp htok
    simp [updateWorkPackage, hfind, hcomp, htok]
  · intro h
    unfold updateWorkPackage at h ⊢
    rcases hfind : r.packages.find? (fun p => p.wpid = wpid) with _ | p
    · simp [hfind]
    · rw [hfind] at h ⊢
      by_cases hcomp : p.completed
      · simp [hcomp]
      · by_cases htok : p.token = token
        · simp [hcomp, htok] at h
        · simp [hcomp, htok]
  · intro p hfind hcomp htok t2 res2
    have hwpid : p.wpid = wpid := by
      have := List.find?_some hfind
      simpa using this
    have hfind2 :
        ((updateWorkPackage r wpid token results).2).packages.find?
            (fun q => q.wpid = wpid) =
          some { p with completed := true } := by
      have hupd : (updateWorkPackage r wpid token results).2.packages =
          r.packages.map (fun q => if q.wpid = wpid then { q with completed := true } else q) := by
        simp [updateWorkPackage, hfind, hcomp, htok]
      rw [hupd, List.find?_map]
      have hpred : ((fun q : WorkPackage => decide (q.wpid = wpid)) ∘
          (fun q => if q.wpid = wpid then { q with completed := true } else q)) =
          (fun q : WorkPackage => decide (q.wpid = wpid)) := by
        funext q
        simp [wpid_of_markCompleted]
      rw [hpred, hfind]
      simp [hwpid]
    exact updWP_found_completed _ wpid t2 res2 _ hfind2 rfl

/-- Registry used by the C2 witness: one object, one pending package with
token 5. -/
def wtnsRegistry : Registry :=
  { store := [([1], defaultBulletData)]
    packages := [⟨1, 5, 1, 2, [[1]], false⟩]
    counter := 1 }

/-- Witness for C2 at a concrete registry: a matching-token commit succeeds,
a wrong token fails and leaves the registry unchanged, an unknown package id
fails, and a second commit after success is rejected without changes. -/
theorem C2_witness :
    (updateWorkPackage wtnsRegistry 1 5 []).1 = CommitResult.ok ∧
    updateWorkPackage wtnsRegistry 1 7 [] = (CommitResult.badToken, wtnsRegistry) ∧
    updateWorkPackage wtnsRegistry 2 5 [] = (CommitResult.unknown, wtnsRegistry) ∧
    updateWorkPackage (updateWorkPackage wtnsRegistry 1 5 []).2 1 9 [] =
      (CommitResult.alreadyCommitted, (updateWorkPackage wtnsRegistry 1 5 []).2) := by
  have h := C2_updateWorkPackage wtnsRegistry 1 5 []
  refine ⟨?_, ?_, ?_, ?_⟩
  · exact h.2.2.2.1 ⟨1, 5, 1, 2, [[1]], false⟩ (by rfl) rfl rfl
  · exact (C2_updateWorkPackage wtnsRegistry 1 7 []).2.2.1
      ⟨1, 5, 1, 2, [[1]], false⟩ (by rfl) rfl (by decide)
  · exact (C2_updateWorkPackage wtnsRegistry 2 5 []).1 (by rfl)
  · exact h.2.2.2.2.2 ⟨1, 5, 1, 2, [[1]], false⟩ (by rfl) rfl rfl 9 []

/-- C6: sampling a defined force grid at a position returns the stored
vector of the cell whose integer index is the per-axis floor of the
position divided by the granularity, and a zero vector of the vector
dimension whenever no cell is stored at that index. -/
theorem C6_getValues_floor (grid : VectorGrid) (p : Vec3) :
    (∀ k v, grid.cells.find? (fun c => c.1 = gridIndex grid.granularity p) = some (k, v) →
      getValuesOne grid p = v) ∧
    (grid.cells.find? (fun c => c.1 = gridIndex grid.granularity p) = none →
      getValuesOne grid p = List.replicate grid.vecDim 0) ∧
    (∀ ps : List Vec3, getValues grid ps = ps.map (getValuesOne grid)) := by
  refine ⟨?_, ?_, fun ps => rfl⟩
  · intro k v hfind
    simp [getValuesOne, hfind]
  · intro hfind
    simp [getValuesOne, hfind]

/-- The grid of the C6 witness: vector dimension 3, granularity 1/2, one
stored cell, matching `test_granularity`. -/
def wtnsGrid : VectorGrid :=
  { vecDim := 3
    granularity := 1/2
    cells := [((2, 4, 6), [-1, 0, 1])] }

/-- Witness for C6 at a concrete grid: the position (1, 2, 3) floors to cell
(2, 4, 6) whose value is returned; the position (9/10, 19/10, 29/10) floors
to cell (1, 3, 5), which is unset and reads as the zero vector.  The second
position also separates flooring from rounding, which would map it to cell
(2, 4, 6). -/
theorem C6_witness :
    gridIndex wtnsGrid.granularity ⟨1, 2, 3⟩ = (2, 4, 6) ∧
    getValuesOne wtnsGrid ⟨1, 2, 3⟩ = [-1, 0, 1] ∧
    gridIndex wtnsGrid.granularity ⟨9/10, 19/10, 29/10⟩ = (1, 3, 5) ∧
    getValuesOne wtnsGrid ⟨9/10, 19/10, 29/10⟩ = [0, 0, 0] := by
  have hidx1 : gridIndex wtnsGrid.granularity ⟨1, 2, 3⟩ = (2, 4, 6) := by
    norm_num [gridIndex, wtnsGrid]
  have hidx2 : gridIndex wtnsGrid.granularity ⟨9/10, 19/10, 29/10⟩ = (1, 3, 5) := by
    norm_num [gridIndex, wtnsGrid]
  refine ⟨hidx1, ?_, hidx2, ?_⟩
  · exact (C6_getValues_floor wtnsGrid ⟨1, 2, 3⟩).1 (2, 4, 6) [-1, 0, 1]
      (by rw [hidx1]; simp [wtnsGrid])
  · simpa [wtnsGrid] using (C6_getValues_floor wtnsGrid ⟨9/10, 19/10, 29/10⟩).2.1
      (by rw [hidx2]; simp [wtnsGrid])

/-- World of the C3 counterexample: a single immovable object
(inverse mass 0) with linear velocity (1, 0, 0) and a queued zero
force/torque document, no suggested position. -/
def cex3World : WorldState :=
  { objects := [([0, 0, 0, 0, 0, 0, 0, 1],
      { defaultBulletData with imass := 0, velocityLin := ⟨1, 0, 0⟩ })]
    forces := [([0, 0, 0, 0, 0, 0, 0, 1], (Vec3.zero, Vec3.zero))]
    suggestions := [] }

/-- Counterexample to C3: the single object has inverse mass 0, yet one call
to `LeonardBase.step` moves its position from the origin to (1, 0, 0),
because the tick applies the Euler update to every object with a queued
force document and never consults `imass`. -/
theorem C3_counterexample :
    (∀ q ∈ cex3World.objects, q.2.imass = 0) ∧
    cex3World.objects.map (fun q => q.2.position) = [⟨0, 0, 0⟩] ∧
    (step 1 cex3World).objects.map (fun q => q.2.position) = [⟨1, 0, 0⟩] := by
  refine ⟨?_, ?_, ?_⟩
  · intro q hq
    simp [cex3World] at hq
    rw [hq]
  · simp [cex3World, defaultBulletData, Vec3.zero]
  · norm_num [cex3World, step, stepMapFun, stepOne, defaultBulletData,
      Vec3.zero, Vec3.add, Vec3.smul]

/-- C3 (amended): one call to `LeonardBase.step` leaves all kinematic fields
of an object unchanged whenever no force/torque document is queued for it;
an inverse mass of 0 by itself gives no such protection, since the Euler
update is applied to every object with a queued force document regardless
of `imass`. -/
theorem C3_step_no_force_unchanged (dt : ℚ) (w : WorldState) (i : ObjID)
    (sv : BulletData) (hmem : (i, sv) ∈ w.objects)
    (hf : w.forces.find? (fun f => f.1 = i) = none) :
    (i, sv) ∈ (step dt w).objects := by
  have hfix : stepMapFun dt w (i, sv) = (i, sv) := by
    simp [stepMapFun, hf]
  have h2 : (step dt w).objects = w.objects.map (stepMapFun dt w) := rfl
  rw [h2]
  exact hfix ▸ List.mem_map_of_mem (stepMapFun dt w) hmem

/-- World of the C3 witness: one immovable object with non-zero stored
velocity and no queued force document. -/
def wtns3World : WorldState :=
  { objects := [([0, 0, 0, 0, 0, 0, 0, 1],
      { defaultBulletData with imass := 0, velocityLin := ⟨1, 0, 0⟩ })]
    forces := []
    suggestions := [] }

/-- Witness for the amended C3 at a concrete world: with no queued force
document the object record survives the tick unchanged. -/
theorem C3_witness :
    ([0, 0, 0, 0, 0, 0, 0, 1],
        { defaultBulletData with imass := 0, velocityLin := (⟨1, 0, 0⟩ : Vec3) }) ∈
      (step 1 wtns3World).objects := by
  exact C3_step_no_force_unchanged 1 wtns3World _ _ (by simp [wtns3World]) rfl

/-- Payload entry of the C7 counterexample: unit central force in the x
direction on the default state. -/
def cex7Obj : WPObj :=
  { id := [0, 0, 0, 0, 0, 0, 0, 1]
    sv := defaultBulletData
    central_force := ⟨1, 0, 0⟩
    torque := Vec3.zero
    sugPos := none }

/-- Counterexample to C7: the Euler-based `LeonardRMQWorker` adds
`0.001 * central_force` to the velocity, which differs from the velocity
the claimed fixed coupling constant `0.01` would produce; the `0.01`
scaling is used only by the Bullet-backed workers. -/
theorem C7_counterexample :
    (rmqAdvanceObj 1 cex7Obj).velocityLin = ⟨1/1000, 0, 0⟩ ∧
    (rmqAdvanceObj 1 cex7Obj).velocityLin ≠
      cex7Obj.sv.velocityLin.add (bulletWorkerAppliedForce cex7Obj.central_force) ∧
    bulletWorkerAppliedForce cex7Obj.central_force = ⟨1/100, 0, 0⟩ := by
  refine ⟨?_, ?_, ?_⟩
  · norm_num [rmqAdvanceObj, cex7Obj, defaultBulletData, Vec3.zero, Vec3.add, Vec3.smul]
  · norm_num [rmqAdvanceObj, cex7Obj, bulletWorkerAppliedForce, defaultBulletData,
      Vec3.zero, Vec3.add, Vec3.smul]
  · norm_num [bulletWorkerAppliedForce, cex7Obj, Vec3.smul]

/-- C7 (amended): the Bullet-backed workers hand the integrator the central
force scaled by the fixed constant 0.01, while the Euler-based
`LeonardRMQWorker.advanceSimulation` instead adds the central force scaled
by 0.001 to the linear velocity before advancing by `dt`; the two coupling
constants differ. -/
theorem C7_worker_force_coupling (f : Vec3) (dt : ℚ) (obj : WPObj) :
    bulletWorkerAppliedForce f = f.smul (1/100) ∧
    (rmqAdvanceObj dt obj).velocityLin =
      obj.sv.velocityLin.add (obj.central_force.smul (1/1000)) ∧
    ((1 : ℚ)/1000) ≠ 1/100 := by
  refine ⟨rfl, ?_, by norm_num⟩
  unfold rmqAdvanceObj
  cases h : obj.sugPos <;> simp [h]

/-!
### Sweep and prune (`sweeping`, leonard.py lines 42-101)

The Python code fills three arrays of length `2 N`: for interval `ii` the
slots `2 ii` and `2 ii + 1` hold its start and end coordinate, its label
twice, and the increments `+1, -1`.  It then permutes the increment and
label arrays by `np.argsort` of the coordinates and scans, maintaining the
running sum `sumVal` and the current set `setObjs`, emitting the set each
time the sum returns to zero.

The embedding keeps each event together with the index of its originating
interval, which models the array-slot identity that `argsort` permutes.
`np.argsort` guarantees only a permutation of the array that is
non-decreasing in the coordinate: its default quicksort is not stable, and
for event arrays longer than 16 entries its partition step demonstrably
reorders events with equal coordinates (for ranges of up to 16 elements it
delegates to a plain, stable insertion sort).  The embedding therefore
treats the sort relationally: `isEventOrder` captures the sorted-permutation
contract, every universal theorem quantifies over all orders satisfying it,
and the executable `sortEvents` (an insertion sort) is one admissible
instance, exact for the concrete evaluations below, all of which stay under
17 events.  The concrete event orders used to refute tie-order-sensitive
properties are the ones NumPy's quicksort actually produces, obtained by
tracing its partition algorithm (median-of-three pivot, unconditional swaps
of equal keys while the scan pointers have not crossed, insertion sort on
the remaining sub-ranges) on the given coordinate arrays.
-/

/-- One labelled interval handed to the one-dimensional sweep: the label
from `labels` and the two coordinates `data[ii][dim]`. -/
structure Seg where
  lab : ℕ
  lo : ℚ
  hi : ℚ
deriving DecidableEq

/-- Default interval used for out-of-range list indexing. -/
def dSeg : Seg := ⟨0, 0, 0⟩

/-- One sweep event: coordinate (`arr_pos`), increment (`arr_inc`), label
(`arr_lab`) and originating interval index. -/
structure SweepEv where
  pos : ℚ
  inc : ℤ
  lab : ℕ
  idx : ℕ
deriving DecidableEq

/-- The start event of interval number `i`. -/
def startEv (i : ℕ) (it : Seg) : SweepEv := ⟨it.lo, 1, it.lab, i⟩

/-- The end event of interval number `i`. -/
def endEv (i : ℕ) (it : Seg) : SweepEv := ⟨it.hi, -1, it.lab, i⟩

/-- The event arrays built by the fill loop of `sweeping`, with the
interval numbering starting at `k`: start directly before end for each
interval, intervals in input order. -/
def mkEventsFrom (k : ℕ) : List Seg → List SweepEv
  | [] => []
  | it :: rest => startEv k it :: endEv k it :: mkEventsFrom (k + 1) rest

/-- The full event list of `sweeping`. -/
def mkEvents (items : List Seg) : List SweepEv := mkEventsFrom 0 items

/-- Comparison used by the argsort: order events by coordinate. -/
def evLE (a b : SweepEv) : Prop := a.pos ≤ b.pos

instance : DecidableRel evLE := fun a b => inferInstanceAs (Decidable (a.pos ≤ b.pos))

instance : IsTotal SweepEv evLE := ⟨fun a b => le_total a.pos b.pos⟩

instance : IsTrans SweepEv evLE := ⟨fun _ _ _ hab hbc => le_trans hab hbc⟩

/-- Executable instance of `np.argsort(arr_pos)` applied to all three
arrays: an insertion sort of the events by coordinate.  NumPy's quicksort
delegates ranges of up to 16 elements to insertion sort, so on every
concrete evaluation below (at most 17 events would be needed for a
difference) this is the exact order the program computes; universal
theorems do not rely on its tie order but quantify over `isEventOrder`. -/
def sortEvents (es : List SweepEv) : List SweepEv := es.insertionSort evLE

/-- The contract of `np.argsort(arr_pos)`: some permutation of the event
array that is non-decreasing in the coordinate.  The tie order of equal
coordinates is left open, since NumPy's default quicksort is not stable. -/
def isEventOrder (items : List Seg) (E : List SweepEv) : Prop :=
  E.Perm (mkEvents items) ∧ E.Sorted evLE

/-- The scan loop of `sweeping`: per event, update the running sum, add the
label to the current set, and emit the set whenever the sum reaches zero. -/
def sweepRun : List SweepEv → ℤ → Finset ℕ → List (Finset ℕ)
  | [], _, _ => []
  | e :: rest, sumVal, setObjs =>
      let sumVal2 := sumVal + e.inc
      let setObjs2 := insert e.lab setObjs
      if sumVal2 = 0 then setObjs2 :: sweepRun rest 0 ∅
      else sweepRun rest sumVal2 setObjs2

/-- Embedding of `sweeping(data, labels, dim)` (leonard.py lines 42-101),
with the zip of `labels` and the `dim` entries of `data` supplied as
`items`. -/
def sweeping (items : List Seg) : List (Finset ℕ) :=
  sweepRun (sortEvents (mkEvents items)) 0 ∅

/-- The `assert sumVal >= 0` of the scan loop: true when the running sum is
non-negative after every event. -/
def sweepAssertOK : List SweepEv → ℤ → Bool
  | [], _ => true
  | e :: rest, sumVal =>
      decide (0 ≤ sumVal + e.inc) && sweepAssertOK rest (sumVal + e.inc)

/-- Events with an index below the numbering base do not occur. -/
theorem mkEventsFrom_filter_lt (items : List Seg) :
    ∀ (k j : ℕ), j < k →
      (mkEventsFrom k items).filter (fun e => e.idx = j) = [] := by
  induction items with
  | nil => intro k j _; rfl
  | cons it rest ih =>
      intro k j hj
      have h1 : ¬((startEv k it).idx = j) := by simp [startEv]; omega
      have h2 : ¬((endEv k it).idx = j) := by simp [endEv]; omega
      simp only [mkEventsFrom, List.filter_cons, h1, h2, decide_False]
      exact ih (k + 1) j (Nat.lt_succ_of_lt hj)

/-- The events of interval number `k + i` are exactly its start event
followed by its end event. -/
theorem mkEventsFrom_filter (items : List Seg) :
    ∀ (k i : ℕ), i < items.length →
      (mkEventsFrom k items).filter (fun e => e.idx = k + i) =
        [startEv (k + i) (items.getD i dSeg), endEv (k + i) (items.getD i dSeg)] := by
  induction items with
  | nil => intro k i hi; exact absurd hi (Nat.not_lt_zero i)
  | cons it rest ih =>
      intro k i hi
      cases i with
      | zero =>
          have hrest : (mkEventsFrom (k + 1) rest).filter (fun e => e.idx = k + 0) = [] :=
            mkEventsFrom_filter_lt rest (k + 1) (k + 0) (by omega)
          have c1 : (startEv k it).idx = k + 0 := by simp [startEv]
          have c2 : (endEv k it).idx = k + 0 := by simp [endEv]
          simp only [mkEventsFrom, List.filter_cons, c1, c2, decide_True, hrest]
          simp
      | succ m =>
          have hm : m < rest.length := by simpa using Nat.lt_of_succ_lt_succ hi
          have h1 : ¬((startEv k it).idx = k + (m + 1)) := by simp [startEv]
          have h2 : ¬((endEv k it).idx = k + (m + 1)) := by simp [endEv]
          have := ih (k + 1) m hm
          rw [show k + 1 + m = k + (m + 1) from by omega] at this
          simp only [mkEventsFrom, List.filter_cons, h1, h2, decide_False, this]
          simp

/-- Every event in the array belongs to some interval of the input, as that
interval's start or end event. -/
theorem mkEventsFrom_mem (items : List Seg) :
    ∀ (k : ℕ), ∀ e ∈ mkEventsFrom k items,
      ∃ i < items.length, e.idx = k + i ∧
        (e = startEv (k + i) (items.getD i dSeg) ∨
          e = endEv (k + i) (items.getD i dSeg)) := by
  induction items with
  | nil => intro k e he; exact absurd he (List.not_mem_nil e)
  | cons it rest ih =>
      intro k e he
      simp only [mkEventsFrom, List.mem_cons] at he
      rcases he with he | he | he
      · exact ⟨0, by simp, by simp [he, startEv], Or.inl (by simp [he])⟩
      · exact ⟨0, by simp, by simp [he, endEv], Or.inr (by simp [he])⟩
      · rcases ih (k + 1) e he with ⟨i, hi, hidx, hor⟩
        refine ⟨i + 1, by simpa using Nat.succ_lt_succ hi, by omega, ?_⟩
        rw [show k + (i + 1) = k + 1 + i from by omega]
        simpa using hor

/-- A two-element permutation is the pair itself or its reversal. -/
theorem perm_pair_eq {α : Type} {x y a b : α} (h : [x, y].Perm [a, b]) :
    (x = a ∧ y = b) ∨ (x = b ∧ y = a) := by
  have hx : x ∈ [a, b] := h.mem_iff.mp (by simp)
  rcases (by simpa using hx : x = a ∨ x = b) with hxa | hxb
  · refine Or.inl ⟨hxa, ?_⟩
    rw [hxa] at h
    simpa [List.perm_singleton] using h.cons_inv
  · refine Or.inr ⟨hxb, ?_⟩
    rw [hxb] at h
    have h2 := (h.trans (List.Perm.swap b a [])).cons_inv
    simpa [List.perm_singleton] using h2

/-- Indexing with a default inside the bounds produces a list member. -/
theorem getD_mem_of_lt {α : Type} (l : List α) (d : α) {i : ℕ} (hi : i < l.length) :
    l.getD i d ∈ l := by
  rw [List.getD_eq_get l d hi]
  exact List.get_mem l i hi

/-- Under any admissible argsort order the events of a strict interval are
still exactly its start event followed by its end event: the two events are
the only ones with that interval index, and a strict interval's start
coordinate is strictly below its end coordinate, so sortedness alone forces
the order.  No stability of the sort is assumed. -/
theorem filter_idx_of_eventOrder (items : List Seg) {E : List SweepEv}
    (hE : isEventOrder items E) (hstrict : ∀ it ∈ items, it.lo < it.hi)
    (i : ℕ) (hi : i < items.length) :
    E.filter (fun e => e.idx = i) =
      [startEv i (items.getD i dSeg), endEv i (items.getD i dSeg)] := by
  have hstricti : (items.getD i dSeg).lo < (items.getD i dSeg).hi :=
    hstrict _ (getD_mem_of_lt items dSeg hi)
  have h0 : (mkEvents items).filter (fun e => e.idx = i) =
      [startEv i (items.getD i dSeg), endEv i (items.getD i dSeg)] := by
    have := mkEventsFrom_filter items 0 i hi
    simpa [mkEvents] using this
  have hperm : (E.filter (fun e => e.idx = i)).Perm
      [startEv i (items.getD i dSeg), endEv i (items.getD i dSeg)] := by
    have hp := hE.1.filter (fun e => decide (e.idx = i))
    rw [show (mkEvents items).filter (fun e => decide (e.idx = i)) =
      [startEv i (items.getD i dSeg), endEv i (items.getD i dSeg)] from h0] at hp
    exact hp
  obtain ⟨x, y, hF⟩ := List.length_eq_two.mp (by simpa using hperm.length_eq)
  rw [hF] at hperm ⊢
  rcases perm_pair_eq hperm with ⟨hx, hy⟩ | ⟨hx, hy⟩
  · rw [hx, hy]
  · exfalso
    have hsubE : [x, y].Sublist E := by
      rw [← hF]
      exact List.filter_sublist E
    have hsorted_xy : List.Sorted evLE [x, y] := hE.2.sublist hsubE
    have hle : evLE x y := List.rel_of_sorted_cons hsorted_xy y (by simp)
    rw [hx, hy] at hle
    simp only [evLE, startEv, endEv] at hle
    exact absurd hstricti (not_lt.mpr hle)

/-- Scan invariant for the sweep loop, relative to the interval table
`itemOf`: `O` holds the open intervals (start seen, end pending), `C` the
intervals closed since the last emission, `U` the untouched intervals.  The
running sum equals the number of open intervals, the current set holds
exactly the labels touched since the last emission, and the remaining event
list `E` holds exactly the pending events of each interval in order. -/
structure SweepInv (itemOf : ℕ → Seg) (E : List SweepEv) (sumVal : ℤ)
    (setObjs : Finset ℕ) (O C U : Finset ℕ) : Prop where
  hsum : sumVal = O.card
  hOC : Disjoint O C
  hOU : Disjoint O U
  hCU : Disjoint C U
  hset : setObjs = (O ∪ C).image (fun i => (itemOf i).lab)
  hzero : sumVal = 0 → O = ∅ ∧ C = ∅
  hO : ∀ i ∈ O, E.filter (fun e => e.idx = i) = [endEv i (itemOf i)]
  hC : ∀ i ∈ C, E.filter (fun e => e.idx = i) = []
  hU : ∀ i ∈ U, E.filter (fun e => e.idx = i) =
    [startEv i (itemOf i), endEv i (itemOf i)]
  hcov : ∀ e ∈ E, e.idx ∈ O ∪ U

/-- Processing the head event of an open interval: the event is that
interval's end event, the sum drops to the number of remaining open
intervals, and the invariant is re-established (with a reset after an
emission). -/
theorem sweepInv_step_end {itemOf : ℕ → Seg} {e : SweepEv} {rest : List SweepEv}
    {s : ℤ} {cur O C U : Finset ℕ}
    (inv : SweepInv itemOf (e :: rest) s cur O C U) (hiO : e.idx ∈ O) :
    e = endEv e.idx (itemOf e.idx) ∧
    s + e.inc = ((O.erase e.idx).card : ℤ) ∧
    (s + e.inc = 0 → SweepInv itemOf rest 0 ∅ ∅ ∅ U) ∧
    (s + e.inc ≠ 0 →
      SweepInv itemOf rest (s + e.inc) (insert e.lab cur)
        (O.erase e.idx) (insert e.idx C) U) := by
  have hfe := inv.hO e.idx hiO
  rw [List.filter_cons_of_pos (by simp)] at hfe
  have he : e = endEv e.idx (itemOf e.idx) := by
    exact (List.cons.injEq _ _ _ _ ▸ hfe).1
  have hre : rest.filter (fun e2 => e2.idx = e.idx) = [] := by
    exact (List.cons.injEq _ _ _ _ ▸ hfe).2
  have hinc : e.inc = -1 := by rw [he]; rfl
  have hpos : 0 < O.card := Finset.card_pos.mpr ⟨e.idx, hiO⟩
  have hcard : s + e.inc = ((O.erase e.idx).card : ℤ) := by
    rw [inv.hsum, hinc, Finset.card_erase_of_mem hiO]
    push_cast [Nat.cast_sub (by omega : 1 ≤ O.card)]
    ring
  have hnotU : e.idx ∉ U := Finset.disjoint_left.mp inv.hOU hiO
  have hfilter_rest : ∀ j, e.idx ≠ j →
      rest.filter (fun e2 => e2.idx = j) = (e :: rest).filter (fun e2 => e2.idx = j) := by
    intro j hj
    rw [List.filter_cons_of_neg (by simpa using hj)]
  refine ⟨he, hcard, ?_, ?_⟩
  · intro hz
    have hO1 : O = {e.idx} := by
      have hcard1 : O.card = 1 := by
        rw [hcard] at hz
        have := Finset.card_erase_of_mem hiO
        omega
      rcases Finset.card_eq_one.mp hcard1 with ⟨a, ha⟩
      rw [ha]
      have : e.idx ∈ ({a} : Finset ℕ) := ha ▸ hiO
      simp at this
      rw [this]
    refine ⟨by simp, by simp, by simp, by simp, by simp, fun _ => ⟨rfl, rfl⟩,
      by simp, by simp, ?_, ?_⟩
    · intro j hj
      rw [hfilter_rest j (fun hh => hnotU (hh ▸ hj))]
      exact inv.hU j hj
    · intro e2 he2
      have hcov := inv.hcov e2 (List.mem_cons_of_mem e he2)
      rcases Finset.mem_union.mp hcov with hO2 | hU2
      · exfalso
        rw [hO1] at hO2
        have he2idx : e2.idx = e.idx := by simpa using hO2
        have : e2 ∈ rest.filter (fun e3 => e3.idx = e.idx) :=
          List.mem_filter.mpr ⟨he2, by simp [he2idx]⟩
        rw [hre] at this
        exact absurd this (List.not_mem_nil e2)
      · exact Finset.mem_union_right _ hU2
  · intro hnz
    have hlab : e.lab = (itemOf e.idx).lab := by rw [he]; rfl
    have hsets : (O.erase e.idx) ∪ insert e.idx C = insert e.idx (O ∪ C) := by
      ext a
      by_cases ha : a = e.idx <;> simp [ha, hiO]
    refine ⟨hcard, ?_, ?_, ?_, ?_, fun hz => absurd hz hnz, ?_, ?_, ?_, ?_⟩
    · rw [Finset.disjoint_insert_right]
      exact ⟨Finset.not_mem_erase e.idx O,
        Finset.disjoint_of_subset_left (Finset.erase_subset e.idx O) inv.hOC⟩
    · exact Finset.disjoint_of_subset_left (Finset.erase_subset e.idx O) inv.hOU
    · rw [Finset.disjoint_insert_left]
      exact ⟨hnotU, inv.hCU⟩
    · rw [hsets, Finset.image_insert, ← hlab, inv.hset.symm]
    · intro j hj
      have hj2 := Finset.mem_of_mem_erase hj
      have hne : e.idx ≠ j := fun hh => Finset.not_mem_erase j O (hh ▸ hj)
      rw [hfilter_rest j hne]
      exact inv.hO j hj2
    · intro j hj
      rcases Finset.mem_insert.mp hj with hj1 | hj2
      · rw [hj1]
        exact hre
      · have hne : e.idx ≠ j := fun hh =>
          Finset.disjoint_left.mp inv.hOC hiO (hh ▸ hj2)
        rw [hfilter_rest j hne]
        exact inv.hC j hj2
    · intro j hj
      have hne : e.idx ≠ j := fun hh => hnotU (hh ▸ hj)
      rw [hfilter_rest j hne]
      exact inv.hU j hj
    · intro e2 he2
      have hcov := inv.hcov e2 (List.mem_cons_of_mem e he2)
      have hne : e2.idx ≠ e.idx := by
        intro hh
        have : e2 ∈ rest.filter (fun e3 => e3.idx = e.idx) :=
          List.mem_filter.mpr ⟨he2, by simp [hh]⟩
        rw [hre] at this
        exact absurd this (List.not_mem_nil e2)
      rcases Finset.mem_union.mp hcov with hO2 | hU2
      · exact Finset.mem_union_left _ (Finset.mem_erase.mpr ⟨hne, hO2⟩)
      · exact Finset.mem_union_right _ hU2

/-- Processing the head event of an untouched interval: the event is that
interval's start event, the sum rises to the new number of open intervals
(in particular it cannot reach zero, so no group is emitted on a start
event), and the invariant is re-established. -/
theorem sweepInv_step_start {itemOf : ℕ → Seg} {e : SweepEv} {rest : List SweepEv}
    {s : ℤ} {cur O C U : Finset ℕ}
    (inv : SweepInv itemOf (e :: rest) s cur O C U) (hiU : e.idx ∈ U) :
    e = startEv e.idx (itemOf e.idx) ∧
    s + e.inc = ((insert e.idx O).card : ℤ) ∧
    s + e.inc ≠ 0 ∧
    SweepInv itemOf rest (s + e.inc) (insert e.lab cur)
      (insert e.idx O) C (U.erase e.idx) := by
  have hfe := inv.hU e.idx hiU
  rw [List.filter_cons_of_pos (by simp)] at hfe
  have he : e = startEv e.idx (itemOf e.idx) := by
    exact (List.cons.injEq _ _ _ _ ▸ hfe).1
  have hre : rest.filter (fun e2 => e2.idx = e.idx) = [endEv e.idx (itemOf e.idx)] := by
    exact (List.cons.injEq _ _ _ _ ▸ hfe).2
  have hinc : e.inc = 1 := by rw [he]; rfl
  have hnotO : e.idx ∉ O := Finset.disjoint_right.mp inv.hOU hiU
  have hnotC : e.idx ∉ C := Finset.disjoint_right.mp inv.hCU hiU
  have hcard : s + e.inc = ((insert e.idx O).card : ℤ) := by
    rw [inv.hsum, hinc, Finset.card_insert_of_not_mem hnotO]
    push_cast
    ring
  have hnz : s + e.inc ≠ 0 := by
    rw [hcard]
    have : 0 < (insert e.idx O).card := Finset.card_pos.mpr ⟨e.idx, Finset.mem_insert_self _ _⟩
    omega
  have hfilter_rest : ∀ j, e.idx ≠ j →
      rest.filter (fun e2 => e2.idx = j) = (e :: rest).filter (fun e2 => e2.idx = j) := by
    intro j hj
    rw [List.filter_cons_of_neg (by simpa using hj)]
  have hlab : e.lab = (itemOf e.idx).lab := by rw [he]; rfl
  refine ⟨he, hcard, hnz, ?_, ?_, ?_, ?_, ?_, fun hz => absurd hz hnz, ?_, ?_, ?_, ?_⟩
  · exact hcard
  · rw [Finset.disjoint_insert_left]
    exact ⟨hnotC, inv.hOC⟩
  · rw [Finset.disjoint_insert_left]
    exact ⟨Finset.not_mem_erase e.idx U,
      Finset.disjoint_of_subset_right (Finset.erase_subset e.idx U) inv.hOU⟩
  · exact Finset.disjoint_of_subset_right (Finset.erase_subset e.idx U) inv.hCU
  · rw [Finset.insert_union, Finset.image_insert, ← hlab, inv.hset.symm]
  · intro j hj
    rcases Finset.mem_insert.mp hj with hj1 | hj2
    · rw [hj1]
      exact hre
    · have hne : e.idx ≠ j := fun hh => hnotO (hh ▸ hj2)
      rw [hfilter_rest j hne]
      exact inv.hO j hj2
  · intro j hj
    have hne : e.idx ≠ j := fun hh => hnotC (hh ▸ hj)
    rw [hfilter_rest j hne]
    exact inv.hC j hj
  · intro j hj
    have hne : e.idx ≠ j := fun hh => Finset.not_mem_erase j U (hh ▸ hj)
    rw [hfilter_rest j hne]
    exact inv.hU j (Finset.mem_of_mem_erase hj)
  · intro e2 he2
    have hcov := inv.hcov e2 (List.mem_cons_of_mem e he2)
    rcases Finset.mem_union.mp hcov with hO2 | hU2
    · exact Finset.mem_union_left _ (Finset.mem_insert_of_mem hO2)
    · by_cases hh : e2.idx = e.idx
      · exact Finset.mem_union_left _ (hh ▸ Finset.mem_insert_self _ _)
      · exact Finset.mem_union_right _ (Finset.mem_erase.mpr ⟨hh, hU2⟩)

/-- With no events left, the invariant forces everything to be empty: all
intervals were closed and emitted. -/
theorem sweepInv_nil {itemOf : ℕ → Seg} {s : ℤ} {cur O C U : Finset ℕ}
    (inv : SweepInv itemOf [] s cur O C U) :
    O = ∅ ∧ U = ∅ ∧ s = 0 ∧ C = ∅ ∧ cur = ∅ := by
  have hO : O = ∅ := by
    rw [Finset.eq_empty_iff_forall_not_mem]
    intro i hi
    simpa using inv.hO i hi
  have hU : U = ∅ := by
    rw [Finset.eq_empty_iff_forall_not_mem]
    intro i hi
    simpa using inv.hU i hi
  have hs : s = 0 := by
    rw [inv.hsum, hO]
    rfl
  have hC : C = ∅ := (inv.hzero hs).2
  have hcur : cur = ∅ := by
    rw [inv.hset, hO, hC]
    rfl
  exact ⟨hO, hU, hs, hC, hcur⟩

/-- C8 core: under the scan invariant the assertion check passes on the
remaining events. -/
theorem sweepAssertOK_of_inv {itemOf : ℕ → Seg} :
    ∀ (E : List SweepEv) (s : ℤ) (cur O C U : Finset ℕ),
      SweepInv itemOf E s cur O C U → sweepAssertOK E s = true := by
  intro E
  induction E with
  | nil => intro s cur O C U _; rfl
  | cons e rest ih =>
      intro s cur O C U inv
      have hcov := inv.hcov e (List.mem_cons_self e rest)
      simp only [sweepAssertOK, Bool.and_eq_true, decide_eq_true_eq]
      rcases Finset.mem_union.mp hcov with hiO | hiU
      · obtain ⟨_, hcard, hzInv, hnzInv⟩ := sweepInv_step_end inv hiO
        refine ⟨by rw [hcard]; exact Int.natCast_nonneg _, ?_⟩
        by_cases hc : s + e.inc = 0
        · rw [hc]
          exact ih 0 ∅ ∅ ∅ U (hzInv hc)
        · exact ih _ _ _ _ _ (hnzInv hc)
      · obtain ⟨_, hcard, _, inv2⟩ := sweepInv_step_start inv hiU
        exact ⟨by rw [hcard]; exact Int.natCast_nonneg _, ih _ _ _ _ _ inv2⟩

/-- Every member of a list of sets is contained in their union. -/
theorem subset_foldr_union {G : Finset ℕ} :
    ∀ (L : List (Finset ℕ)), G ∈ L → G ⊆ L.foldr (· ∪ ·) ∅ := by
  intro L
  induction L with
  | nil => intro h; simp at h
  | cons A t ih =>
      intro h
      rcases List.mem_cons.mp h with h1 | h2
      · rw [h1]
        exact Finset.subset_union_left
      · exact (ih h2).trans Finset.subset_union_right

/-- Membership in the union of a list of sets is membership in one of them. -/
theorem mem_foldr_union {a : ℕ} :
    ∀ (L : List (Finset ℕ)), a ∈ L.foldr (· ∪ ·) ∅ ↔ ∃ G ∈ L, a ∈ G := by
  intro L
  induction L with
  | nil => simp
  | cons A t ih =>
      simp only [List.foldr_cons, Finset.mem_union, ih, List.mem_cons]
      constructor
      · rintro (h | ⟨G, hG, ha⟩)
        · exact ⟨A, Or.inl rfl, h⟩
        · exact ⟨G, Or.inr hG, ha⟩
      · rintro ⟨G, hG | hG, ha⟩
        · exact Or.inl (hG ▸ ha)
        · exact Or.inr ⟨G, hG, ha⟩

/-- Union of the emitted groups: under the scan invariant, the groups still
to be emitted cover exactly the current set plus the labels of the
untouched intervals. -/
theorem sweepRun_union {itemOf : ℕ → Seg} :
    ∀ (E : List SweepEv) (s : ℤ) (cur O C U : Finset ℕ),
      SweepInv itemOf E s cur O C U →
      (sweepRun E s cur).foldr (· ∪ ·) ∅ =
        cur ∪ U.image (fun i => (itemOf i).lab) := by
  intro E
  induction E with
  | nil =>
      intro s cur O C U inv
      obtain ⟨_, hU, _, _, hcur⟩ := sweepInv_nil inv
      rw [hU, hcur]
      rfl
  | cons e rest ih =>
      intro s cur O C U inv
      have hcov := inv.hcov e (List.mem_cons_self e rest)
      simp only [sweepRun]
      rcases Finset.mem_union.mp hcov with hiO | hiU
      · obtain ⟨he, hcard, hzInv, hnzInv⟩ := sweepInv_step_end inv hiO
        have hlabcur : e.lab ∈ cur := by
          rw [inv.hset, he]
          exact Finset.mem_image_of_mem _ (Finset.mem_union_left _ hiO)
        have habs : insert e.lab cur = cur := Finset.insert_eq_self.mpr hlabcur
        by_cases hc : s + e.inc = 0
        · rw [if_pos hc]
          simp only [List.foldr_cons]
          rw [ih 0 ∅ ∅ ∅ U (hzInv hc), habs]
          simp
        · rw [if_neg hc, ih _ _ _ _ _ (hnzInv hc), habs]
      · obtain ⟨he, hcard, hnz, inv2⟩ := sweepInv_step_start inv hiU
        rw [if_neg hnz, ih _ _ _ _ _ inv2]
        have hlab : e.lab = (itemOf e.idx).lab := by rw [he]; rfl
        have hUsplit : U.image (fun i => (itemOf i).lab) =
            insert ((itemOf e.idx).lab)
              ((U.erase e.idx).image (fun i => (itemOf i).lab)) := by
          conv_lhs => rw [← Finset.insert_erase hiU]
          rw [Finset.image_insert]
        rw [hUsplit, hlab, Finset.insert_union, Finset.union_insert]

/-- A label already in the current set ends up in the first emitted group. -/
theorem sweepRun_head_mem {itemOf : ℕ → Seg} :
    ∀ (E : List SweepEv) (s : ℤ) (cur O C U : Finset ℕ),
      SweepInv itemOf E s cur O C U → ∀ l ∈ cur,
        ∃ G rest2, sweepRun E s cur = G :: rest2 ∧ l ∈ G := by
  intro E
  induction E with
  | nil =>
      intro s cur O C U inv l hl
      obtain ⟨_, _, _, _, hcur⟩ := sweepInv_nil inv
      rw [hcur] at hl
      simp at hl
  | cons e rest ih =>
      intro s cur O C U inv l hl
      have hcov := inv.hcov e (List.mem_cons_self e rest)
      simp only [sweepRun]
      rcases Finset.mem_union.mp hcov with hiO | hiU
      · obtain ⟨_, _, _, hnzInv⟩ := sweepInv_step_end inv hiO
        by_cases hc : s + e.inc = 0
        · rw [if_pos hc]
          exact ⟨insert e.lab cur, _, rfl, Finset.mem_insert_of_mem hl⟩
        · rw [if_neg hc]
          exact ih _ _ _ _ _ (hnzInv hc) l (Finset.mem_insert_of_mem hl)
      · obtain ⟨_, _, hnz, inv2⟩ := sweepInv_step_start inv hiU
        rw [if_neg hnz]
        exact ih _ _ _ _ _ inv2 l (Finset.mem_insert_of_mem hl)

/-- Emitted groups are pairwise disjoint when the labels of the intervals
still in play are pairwise distinct. -/
theorem sweepRun_disjoint {itemOf : ℕ → Seg} :
    ∀ (E : List SweepEv) (s : ℤ) (cur O C U : Finset ℕ),
      SweepInv itemOf E s cur O C U →
      (∀ i ∈ O ∪ C ∪ U, ∀ j ∈ O ∪ C ∪ U, (itemOf i).lab = (itemOf j).lab → i = j) →
      List.Pairwise (fun A B => Disjoint A B) (sweepRun E s cur) := by
  intro E
  induction E with
  | nil => intro s cur O C U _ _; exact List.Pairwise.nil
  | cons e rest ih =>
      intro s cur O C U inv hinj
      have hcov := inv.hcov e (List.mem_cons_self e rest)
      simp only [sweepRun]
      rcases Finset.mem_union.mp hcov with hiO | hiU
      · obtain ⟨he, hcard, hzInv, hnzInv⟩ := sweepInv_step_end inv hiO
        by_cases hc : s + e.inc = 0
        · rw [if_pos hc]
          have inv2 := hzInv hc
          rw [List.pairwise_cons]
          constructor
          · intro B hB
            have hBsub : B ⊆ U.image (fun i => (itemOf i).lab) := by
              have := subset_foldr_union _ hB
              rw [sweepRun_union rest 0 ∅ ∅ ∅ U inv2] at this
              simpa using this
            have hG : insert e.lab cur =
                (insert e.idx (O ∪ C)).image (fun i => (itemOf i).lab) := by
              rw [Finset.image_insert, inv.hset]
              have : e.lab = (itemOf e.idx).lab := by rw [he]; rfl
              rw [this]
            have hdisj : Disjoint ((insert e.idx (O ∪ C)).image (fun i => (itemOf i).lab))
                (U.image (fun i => (itemOf i).lab)) := by
              rw [Finset.disjoint_left]
              rintro a ha hb
              rcases Finset.mem_image.mp ha with ⟨x, hx, hfx⟩
              rcases Finset.mem_image.mp hb with ⟨y, hy, hfy⟩
              have hxmem : x ∈ O ∪ C ∪ U := by
                rcases Finset.mem_insert.mp hx with h1 | h1
                · exact Finset.mem_union_left _ (Finset.mem_union_left _ (h1 ▸ hiO))
                · exact Finset.mem_union_left _ h1
              have hymem : y ∈ O ∪ C ∪ U := Finset.mem_union_right _ hy
              have hxy : x = y := hinj x hxmem y hymem (hfx.trans hfy.symm)
              rw [hxy] at hx
              rcases Finset.mem_insert.mp hx with h1 | h1
              · have hyO : y ∈ O := by rw [h1]; exact hiO
                exact Finset.disjoint_left.mp inv.hOU hyO hy
              · rcases Finset.mem_union.mp h1 with h2 | h2
                · exact Finset.disjoint_left.mp inv.hOU h2 hy
                · exact Finset.disjoint_left.mp inv.hCU h2 hy
            rw [hG]
            exact Finset.disjoint_of_subset_right hBsub hdisj
          · apply ih _ _ _ _ _ inv2
            intro a ha b hb hab
            refine hinj a ?_ b ?_ hab
            · have ha2 : a ∈ U := by simpa using ha
              exact Finset.mem_union_right _ ha2
            · have hb2 : b ∈ U := by simpa using hb
              exact Finset.mem_union_right _ hb2
        · rw [if_neg hc]
          apply ih _ _ _ _ _ (hnzInv hc)
          intro a ha b hb hab
          have hsub : (O.erase e.idx) ∪ insert e.idx C ∪ U ⊆ O ∪ C ∪ U := by
            intro x hx
            rcases Finset.mem_union.mp hx with h1 | h1
            · rcases Finset.mem_union.mp h1 with h2 | h2
              · exact Finset.mem_union_left _
                  (Finset.mem_union_left _ (Finset.mem_of_mem_erase h2))
              · rcases Finset.mem_insert.mp h2 with h3 | h3
                · exact Finset.mem_union_left _ (Finset.mem_union_left _ (h3 ▸ hiO))
                · exact Finset.mem_union_left _ (Finset.mem_union_right _ h3)
            · exact Finset.mem_union_right _ h1
          exact hinj a (hsub ha) b (hsub hb) hab
      · obtain ⟨he, hcard, hnz, inv2⟩ := sweepInv_step_start inv hiU
        rw [if_neg hnz]
        apply ih _ _ _ _ _ inv2
        intro a ha b hb hab
        have hsub : insert e.idx O ∪ C ∪ U.erase e.idx ⊆ O ∪ C ∪ U := by
          intro x hx
          rcases Finset.mem_union.mp hx with h1 | h1
          · rcases Finset.mem_union.mp h1 with h2 | h2
            · rcases Finset.mem_insert.mp h2 with h3 | h3
              · exact Finset.mem_union_right _ (h3 ▸ hiU)
              · exact Finset.mem_union_left _ (Finset.mem_union_left _ h3)
            · exact Finset.mem_union_left _ (Finset.mem_union_right _ h2)
          · exact Finset.mem_union_right _ (Finset.mem_of_mem_erase h1)
        exact hinj a (hsub ha) b (hsub hb) hab

/-- Soundness of one sweep pass: two different intervals still in play
whose coordinate ranges strictly overlap always end up in the same emitted
group.  The sortedness of the remaining events guarantees that when one of
the two intervals closes, the other has already been opened. -/
theorem sweepRun_overlap {itemOf : ℕ → Seg} :
    ∀ (E : List SweepEv), E.Sorted evLE →
      ∀ (s : ℤ) (cur O C U : Finset ℕ),
        SweepInv itemOf E s cur O C U →
        ∀ i j, i ≠ j → i ∈ O ∪ U → j ∈ O ∪ U →
          (itemOf j).lo < (itemOf i).hi → (itemOf i).lo < (itemOf j).hi →
          ∃ G ∈ sweepRun E s cur, (itemOf i).lab ∈ G ∧ (itemOf j).lab ∈ G := by
  intro E
  induction E with
  | nil =>
      intro _ s cur O C U inv i j _ hiOU _ _ _
      obtain ⟨hO, hU, _, _, _⟩ := sweepInv_nil inv
      rw [hO, hU] at hiOU
      simp at hiOU
  | cons e rest ih =>
      intro hsorted s cur O C U inv i j hij hiOU hjOU hov1 hov2
      have hsorted2 : rest.Sorted evLE := hsorted.of_cons
      have hcov := inv.hcov e (List.mem_cons_self e rest)
      have hclose : ∀ b, e.idx ≠ b → e.idx ∈ O → b ∈ O ∪ U →
          (itemOf b).lo < (itemOf e.idx).hi →
          ∃ G ∈ sweepRun (e :: rest) s cur,
            (itemOf e.idx).lab ∈ G ∧ (itemOf b).lab ∈ G := by
        intro b hab haO hbOU hblo
        obtain ⟨he, hcard, hzInv, hnzInv⟩ := sweepInv_step_end inv haO
        have hbO : b ∈ O := by
          rcases Finset.mem_union.mp hbOU with h | hbU
          · exact h
          · exfalso
            have hfb := inv.hU b hbU
            have hmem : startEv b (itemOf b) ∈ (e :: rest) := by
              have hmf : startEv b (itemOf b) ∈
                  (e :: rest).filter (fun e2 => e2.idx = b) := by
                rw [hfb]
                simp
              exact (List.mem_filter.mp hmf).1
            have hne : startEv b (itemOf b) ≠ e := by
              intro hh
              apply hab
              rw [← hh]
              rfl
            have hmem2 : startEv b (itemOf b) ∈ rest := by
              rcases List.mem_cons.mp hmem with hh | hh
              · exact absurd hh hne
              · exact hh
            have hle : evLE e (startEv b (itemOf b)) :=
              List.rel_of_sorted_cons hsorted _ hmem2
            rw [he] at hle
            simp only [evLE, startEv, endEv] at hle
            exact absurd hblo (not_lt.mpr hle)
        have hlabb : (itemOf b).lab ∈ cur := by
          rw [inv.hset]
          exact Finset.mem_image_of_mem _ (Finset.mem_union_left _ hbO)
        have hlaba : (itemOf e.idx).lab ∈ insert e.lab cur := by
          have hl : e.lab = (itemOf e.idx).lab := by rw [he]; rfl
          rw [← hl]
          exact Finset.mem_insert_self _ _
        simp only [sweepRun]
        by_cases hc : s + e.inc = 0
        · rw [if_pos hc]
          exact ⟨insert e.lab cur, List.mem_cons_self _ _, hlaba,
            Finset.mem_insert_of_mem hlabb⟩
        · rw [if_neg hc]
          obtain ⟨G, rest2, hrunG, hmemG⟩ :=
            sweepRun_head_mem rest (s + e.inc) (insert e.lab cur) _ _ _
              (hnzInv hc) ((itemOf e.idx).lab) hlaba
          obtain ⟨G2, rest3, hrunG2, hmemG2⟩ :=
            sweepRun_head_mem rest (s + e.inc) (insert e.lab cur) _ _ _
              (hnzInv hc) ((itemOf b).lab) (Finset.mem_insert_of_mem hlabb)
          rw [hrunG] at hrunG2
          have hGG : G = G2 := by
            injection hrunG2
          refine ⟨G, ?_, hmemG, hGG ▸ hmemG2⟩
          rw [hrunG]
          exact List.mem_cons_self _ _
      by_cases hki : e.idx = i
      · rcases Finset.mem_union.mp hiOU with hiO | hiU
        · have h := hclose j (fun hh => hij (hki.symm.trans hh))
            (by rw [hki]; exact hiO) hjOU (by rw [hki]; exact hov1)
          rw [← hki]
          exact h
        · obtain ⟨he, hcard, hnz, inv2⟩ := sweepInv_step_start inv (hki ▸ hiU)
          simp only [sweepRun]
          rw [if_neg hnz]
          apply ih hsorted2 _ _ _ _ _ inv2 i j hij ?_ ?_ hov1 hov2
          · refine Finset.mem_union_left _ ?_
            rw [← hki]
            exact Finset.mem_insert_self _ _
          · rcases Finset.mem_union.mp hjOU with h | h
            · exact Finset.mem_union_left _ (Finset.mem_insert_of_mem h)
            · refine Finset.mem_union_right _ (Finset.mem_erase.mpr ⟨?_, h⟩)
              intro hh
              exact hij ((hh.trans hki).symm)
      · by_cases hkj : e.idx = j
        · rcases Finset.mem_union.mp hjOU with hjO | hjU
          · obtain ⟨G, hG, hb, ha⟩ := hclose i (fun hh => hki hh)
              (by rw [hkj]; exact hjO) hiOU (by rw [hkj]; exact hov2)
            refine ⟨G, hG, ha, ?_⟩
            rw [← hkj]
            exact hb
          · obtain ⟨he, hcard, hnz, inv2⟩ := sweepInv_step_start inv (hkj ▸ hjU)
            simp only [sweepRun]
            rw [if_neg hnz]
            apply ih hsorted2 _ _ _ _ _ inv2 i j hij ?_ ?_ hov1 hov2
            · rcases Finset.mem_union.mp hiOU with h | h
              · exact Finset.mem_union_left _ (Finset.mem_insert_of_mem h)
              · refine Finset.mem_union_right _ (Finset.mem_erase.mpr ⟨?_, h⟩)
                intro hh
                exact hij (hh.trans hkj)
            · refine Finset.mem_union_left _ ?_
              rw [← hkj]
              exact Finset.mem_insert_self _ _
        · rcases Finset.mem_union.mp hcov with hkO | hkU
          · obtain ⟨he, hcard, hzInv, hnzInv⟩ := sweepInv_step_end inv hkO
            simp only [sweepRun]
            by_cases hc : s + e.inc = 0
            · rw [if_pos hc]
              have herase : O.erase e.idx = ∅ := by
                have hz : ((O.erase e.idx).card : ℤ) = 0 := hcard.symm.trans hc
                exact Finset.card_eq_zero.mp (by exact_mod_cast hz)
              have hiU2 : i ∈ U := by
                rcases Finset.mem_union.mp hiOU with h | h
                · exfalso
                  have hmem : i ∈ O.erase e.idx :=
                    Finset.mem_erase.mpr ⟨fun hh => hki hh.symm, h⟩
                  rw [herase] at hmem
                  simp at hmem
                · exact h
              have hjU2 : j ∈ U := by
                rcases Finset.mem_union.mp hjOU with h | h
                · exfalso
                  have hmem : j ∈ O.erase e.idx :=
                    Finset.mem_erase.mpr ⟨fun hh => hkj hh.symm, h⟩
                  rw [herase] at hmem
                  simp at hmem
                · exact h
              obtain ⟨G, hG, hmm⟩ := ih hsorted2 _ _ _ _ _ (hzInv hc) i j hij
                (Finset.mem_union_right _ hiU2) (Finset.mem_union_right _ hjU2)
                hov1 hov2
              exact ⟨G, List.mem_cons_of_mem _ hG, hmm⟩
            · rw [if_neg hc]
              apply ih hsorted2 _ _ _ _ _ (hnzInv hc) i j hij ?_ ?_ hov1 hov2
              · rcases Finset.mem_union.mp hiOU with h | h
                · exact Finset.mem_union_left _
                    (Finset.mem_erase.mpr ⟨fun hh => hki hh.symm, h⟩)
                · exact Finset.mem_union_right _ h
              · rcases Finset.mem_union.mp hjOU with h | h
                · exact Finset.mem_union_left _
                    (Finset.mem_erase.mpr ⟨fun hh => hkj hh.symm, h⟩)
                · exact Finset.mem_union_right _ h
          · obtain ⟨he, hcard, hnz, inv2⟩ := sweepInv_step_start inv hkU
            simp only [sweepRun]
            rw [if_neg hnz]
            apply ih hsorted2 _ _ _ _ _ inv2 i j hij ?_ ?_ hov1 hov2
            · rcases Finset.mem_union.mp hiOU with h | h
              · exact Finset.mem_union_left _ (Finset.mem_insert_of_mem h)
              · exact Finset.mem_union_right _
                  (Finset.mem_erase.mpr ⟨fun hh => hki hh.symm, h⟩)
            · rcases Finset.mem_union.mp hjOU with h | h
              · exact Finset.mem_union_left _ (Finset.mem_insert_of_mem h)
              · exact Finset.mem_union_right _
                  (Finset.mem_erase.mpr ⟨fun hh => hkj hh.symm, h⟩)

/-- The invariant holds at the start of the scan for any admissible event
order over strict intervals: no intervals open or closed, all intervals
untouched. -/
theorem sweepInv_initialE (items : List Seg) {E : List SweepEv}
    (hE : isEventOrder items E) (hstrict : ∀ it ∈ items, it.lo < it.hi) :
    SweepInv (fun i => items.getD i dSeg) E 0 ∅ ∅ ∅
      (Finset.range items.length) := by
  refine ⟨by simp, by simp, by simp, by simp, by simp, fun _ => ⟨rfl, rfl⟩,
    ?_, ?_, ?_, ?_⟩
  · intro i hi
    simp at hi
  · intro i hi
    simp at hi
  · intro i hi
    rw [Finset.mem_range] at hi
    exact filter_idx_of_eventOrder items hE hstrict i hi
  · intro e he
    have he2 : e ∈ mkEvents items := hE.1.mem_iff.mp he
    obtain ⟨i, hi, hidx, _⟩ := mkEventsFrom_mem items 0 e he2
    refine Finset.mem_union_right _ ?_
    rw [Finset.mem_range, hidx]
    omega

/-- The executable sort is sorted by coordinate. -/
theorem sortEvents_sorted (items : List Seg) :
    (sortEvents (mkEvents items)).Sorted evLE :=
  List.sorted_insertionSort evLE (mkEvents items)

/-- The executable sort satisfies the argsort contract. -/
theorem sweeping_isEventOrder (items : List Seg) :
    isEventOrder items (sortEvents (mkEvents items)) :=
  ⟨List.perm_insertionSort evLE (mkEvents items), sortEvents_sorted items⟩

/-- The behaviours of `sweeping` under the argsort contract: the output of
the scan for some admissible order of the event array.  The program's
output is one of these, whatever tie order `np.argsort` picks. -/
def sweepingRel (items : List Seg) (gs : List (Finset ℕ)) : Prop :=
  ∃ E, isEventOrder items E ∧ gs = sweepRun E 0 ∅

/-- The executable `sweeping` is one admissible behaviour. -/
theorem sweeping_sweepingRel (items : List Seg) :
    sweepingRel items (sweeping items) :=
  ⟨sortEvents (mkEvents items), sweeping_isEventOrder items, rfl⟩

/-- The label image over all indices is the set of input labels. -/
theorem range_image_lab (items : List Seg) :
    (Finset.range items.length).image (fun i => (items.getD i dSeg).lab) =
      (items.map Seg.lab).toFinset := by
  ext a
  simp only [Finset.mem_image, Finset.mem_range, List.mem_toFinset, List.mem_map]
  constructor
  · rintro ⟨i, hi, hl⟩
    exact ⟨items.getD i dSeg, getD_mem_of_lt items dSeg hi, hl⟩
  · rintro ⟨it, hit, hl⟩
    obtain ⟨n, hget⟩ := List.mem_iff_get.mp hit
    refine ⟨n, n.isLt, ?_⟩
    rw [List.getD_eq_get items dSeg n.isLt]
    rw [hget]
    exact hl

/-- Distinct labels make the label function injective on interval indices. -/
theorem lab_injective_of_nodup (items : List Seg)
    (hnodup : (items.map Seg.lab).Nodup) :
    ∀ i, i < items.length → ∀ j, j < items.length →
      (items.getD i dSeg).lab = (items.getD j dSeg).lab → i = j := by
  intro i hi j hj hlab
  have hi2 : i < (items.map Seg.lab).length := by rw [List.length_map]; exact hi
  have hj2 : j < (items.map Seg.lab).length := by rw [List.length_map]; exact hj
  have h1 : (items.map Seg.lab).get ⟨i, hi2⟩ = (items.map Seg.lab).get ⟨j, hj2⟩ := by
    rw [List.get_map, List.get_map]
    rw [List.getD_eq_get items dSeg hi, List.getD_eq_get items dSeg hj] at hlab
    exact hlab
  have h2 := (List.Nodup.get_inj_iff hnodup).mp h1
  simpa using h2

/-- Union of the groups of a full sweep under any admissible order: the
set of input labels. -/
theorem sweepingRel_union (items : List Seg)
    (hstrict : ∀ it ∈ items, it.lo < it.hi) {gs : List (Finset ℕ)}
    (hgs : sweepingRel items gs) :
    gs.foldr (· ∪ ·) ∅ = (items.map Seg.lab).toFinset := by
  obtain ⟨E, hE, rfl⟩ := hgs
  rw [sweepRun_union E 0 ∅ ∅ ∅ (Finset.range items.length)
    (sweepInv_initialE items hE hstrict)]
  rw [Finset.empty_union, range_image_lab]

/-- C9 core for a full sweep: with pairwise-distinct labels and strict
intervals the emitted groups are pairwise disjoint under any admissible
order. -/
theorem sweepingRel_disjoint (items : List Seg)
    (hstrict : ∀ it ∈ items, it.lo < it.hi)
    (hnodup : (items.map Seg.lab).Nodup) {gs : List (Finset ℕ)}
    (hgs : sweepingRel items gs) :
    List.Pairwise (fun A B => Disjoint A B) gs := by
  obtain ⟨E, hE, rfl⟩ := hgs
  apply sweepRun_disjoint E 0 ∅ ∅ ∅
    (Finset.range items.length) (sweepInv_initialE items hE hstrict)
  intro i hi j hj hlab
  have hi2 : i < items.length := by
    have := hi
    simp [Finset.mem_range] at this
    exact this
  have hj2 : j < items.length := by
    have := hj
    simp [Finset.mem_range] at this
    exact this
  exact lab_injective_of_nodup items hnodup i hi2 j hj2 hlab

/-- Soundness of a full sweep: two strict intervals whose coordinate ranges
strictly overlap land in the same emitted group under any admissible
order. -/
theorem sweepingRel_overlap (items : List Seg)
    (hstrict : ∀ it ∈ items, it.lo < it.hi)
    (i j : ℕ) (hi : i < items.length) (hj : j < items.length)
    (hov1 : (items.getD j dSeg).lo < (items.getD i dSeg).hi)
    (hov2 : (items.getD i dSeg).lo < (items.getD j dSeg).hi)
    {gs : List (Finset ℕ)} (hgs : sweepingRel items gs) :
    ∃ G ∈ gs,
      (items.getD i dSeg).lab ∈ G ∧ (items.getD j dSeg).lab ∈ G := by
  obtain ⟨E, hE, rfl⟩ := hgs
  by_cases hij : i = j
  · subst hij
    have hcover : (items.getD i dSeg).lab ∈
        (sweepRun E 0 ∅).foldr (· ∪ ·) ∅ := by
      rw [sweepingRel_union items hstrict ⟨E, hE, rfl⟩, List.mem_toFinset]
      exact List.mem_map_of_mem Seg.lab (getD_mem_of_lt items dSeg hi)
    obtain ⟨G, hG, ha⟩ := (mem_foldr_union (sweepRun E 0 ∅)).mp hcover
    exact ⟨G, hG, ha, ha⟩
  · exact sweepRun_overlap E hE.2
      0 ∅ ∅ ∅ (Finset.range items.length) (sweepInv_initialE items hE hstrict) i j hij
      (Finset.mem_union_right _ (Finset.mem_range.mpr hi))
      (Finset.mem_union_right _ (Finset.mem_range.mpr hj))
      hov1 hov2

/-!
### computeCollisionSetsAABB (leonard.py lines 104-154)

The function derives per-object axis-aligned boxes from position and
bounding-sphere radius, sweeps the x axis over all objects, then re-sweeps
every emitted group on y and then on z, and finally converts label indices
back to object ids.  The `btInterface.getAABB` store lookup is modelled by
passing the radii alongside the state variables (the claim assumes every id
is present in the store); Python set iteration order when a group is turned
back into arrays is modelled as ascending order.
-/

/-- The per-object box `{'x': [x0, x1], 'y': [y0, y1], 'z': [z0, z1]}`. -/
structure Box where
  x0 : ℚ
  x1 : ℚ
  y0 : ℚ
  y1 : ℚ
  z0 : ℚ
  z1 : ℚ
deriving DecidableEq

/-- Default box for out-of-range indexing. -/
def dBox : Box := ⟨0, 0, 0, 0, 0, 0⟩

/-- Default object id for out-of-range indexing. -/
def dObjID : ObjID := []

/-- The `dim` argument of `sweeping`. -/
inductive Axis where
  | x
  | y
  | z
deriving DecidableEq

/-- Lower coordinate of a box on an axis. -/
def axLo : Axis → Box → ℚ
  | Axis.x, b => b.x0
  | Axis.y, b => b.y0
  | Axis.z, b => b.z0

/-- Upper coordinate of a box on an axis. -/
def axHi : Axis → Box → ℚ
  | Axis.x, b => b.x1
  | Axis.y, b => b.y1
  | Axis.z, b => b.z1

/-- Box of one object: `[pos[a] - aabb, pos[a] + aabb]` on each axis. -/
def mkBox (pos : Vec3) (aabb : ℚ) : Box :=
  ⟨pos.x - aabb, pos.x + aabb, pos.y - aabb, pos.y + aabb,
    pos.z - aabb, pos.z + aabb⟩

/-- The data/label pairs handed to one `sweeping` call: for each label the
`dim` interval of its box (`tmpData`, `tmpLabels`). -/
def segsOf (data : List Box) (ax : Axis) (labels : List ℕ) : List Seg :=
  labels.map (fun l => ⟨l, axLo ax (data.getD l dBox), axHi ax (data.getD l dBox)⟩)

/-- One refinement stage of `computeCollisionSetsAABB`: re-sweep every
group of the previous stage on the given axis and concatenate the outputs. -/
def sweepStage (data : List Box) (ax : Axis) (groups : List (Finset ℕ)) :
    List (Finset ℕ) :=
  groups.flatMap (fun G => sweeping (segsOf data ax (G.sort (· ≤ ·))))

/-- The box list of `computeCollisionSetsAABB`. -/
def mkData (SVs : List BulletData) (aabbs : List ℚ) : List Box :=
  (SVs.zip aabbs).map (fun p => mkBox p.1.position p.2)

/-- Embedding of `computeCollisionSetsAABB(IDs, SVs)` (leonard.py lines
104-154): `none` models the `(False, None)` return on a length mismatch
(the radii list stands for the `getAABB` lookup, aligned with `IDs`). -/
def computeCollisionSetsAABB (IDs : List ObjID) (SVs : List BulletData)
    (aabbs : List ℚ) : Option (List (List ObjID)) :=
  if IDs.length ≠ SVs.length then none
  else if aabbs.length ≠ IDs.length then none
  else
    let data := mkData SVs aabbs
    let stage0 := sweeping (segsOf data Axis.x (List.range IDs.length))
    let stage1 := sweepStage data Axis.y stage0
    let stage2 := sweepStage data Axis.z stage1
    some (stage2.map (fun G => (G.sort (· ≤ ·)).map (fun i => IDs.getD i dObjID)))

/-- Labels of the sweep input are the label list itself. -/
theorem segsOf_map_lab (data : List Box) (ax : Axis) (labels : List ℕ) :
    (segsOf data ax labels).map Seg.lab = labels := by
  simp [segsOf, List.map_map, Function.comp_def]

/-- Length of the sweep input. -/
theorem segsOf_length (data : List Box) (ax : Axis) (labels : List ℕ) :
    (segsOf data ax labels).length = labels.length := by
  simp [segsOf]

/-- Entry of the sweep input at a position. -/
theorem segsOf_getD (data : List Box) (ax : Axis) (labels : List ℕ)
    (p : ℕ) (hp : p < labels.length) :
    (segsOf data ax labels).getD p dSeg =
      ⟨labels.getD p 0, axLo ax (data.getD (labels.getD p 0) dBox),
        axHi ax (data.getD (labels.getD p 0) dBox)⟩ := by
  have hp2 : p < (segsOf data ax labels).length := by
    rw [segsOf_length]
    exact hp
  rw [List.getD_eq_get _ _ hp2, List.getD_eq_get _ _ hp]
  simp [segsOf, List.get_map]

/-- With strictly positive radii every box of the data list has a strict
extent on every axis. -/
theorem mkData_strict (SVs : List BulletData) (aabbs : List ℚ)
    (hrad : ∀ r ∈ aabbs, 0 < r) :
    ∀ ax, ∀ b ∈ mkData SVs aabbs, axLo ax b < axHi ax b := by
  intro ax b hb
  simp only [mkData, List.mem_map] at hb
  obtain ⟨p, hp, rfl⟩ := hb
  have hr : 0 < p.2 := hrad p.2 (List.of_mem_zip hp).2
  cases ax <;> simp [axLo, axHi, mkBox] <;> linarith

/-- Sweep inputs over in-range labels of a strict data list are strict. -/
theorem segsOf_strict (data : List Box) (ax : Axis)
    (hdata : ∀ b ∈ data, axLo ax b < axHi ax b) (labels : List ℕ)
    (hlab : ∀ l ∈ labels, l < data.length) :
    ∀ it ∈ segsOf data ax labels, it.lo < it.hi := by
  intro it hit
  simp only [segsOf, List.mem_map] at hit
  obtain ⟨l, hl, rfl⟩ := hit
  exact hdata _ (getD_mem_of_lt data dBox (hlab l hl))

/-- Folding union distributes over append. -/
theorem foldr_union_append (L1 L2 : List (Finset ℕ)) :
    (L1 ++ L2).foldr (· ∪ ·) ∅ =
      L1.foldr (· ∪ ·) ∅ ∪ L2.foldr (· ∪ ·) ∅ := by
  ext a
  simp only [Finset.mem_union, mem_foldr_union, List.mem_append]
  constructor
  · rintro ⟨G, hG | hG, ha⟩
    · exact Or.inl ⟨G, hG, ha⟩
    · exact Or.inr ⟨G, hG, ha⟩
  · rintro (⟨G, hG, ha⟩ | ⟨G, hG, ha⟩)
    · exact ⟨G, Or.inl hG, ha⟩
    · exact ⟨G, Or.inr hG, ha⟩

/-- One refinement stage under the argsort contract: each input group is
re-swept under some admissible event order of its own and the outputs are
concatenated in input order. -/
inductive stageRel (data : List Box) (ax : Axis) :
    List (Finset ℕ) → List (Finset ℕ) → Prop where
  | nil : stageRel data ax [] []
  | cons {G : Finset ℕ} {t : List (Finset ℕ)} {out1 out2 : List (Finset ℕ)} :
      sweepingRel (segsOf data ax (G.sort (· ≤ ·))) out1 →
      stageRel data ax t out2 → stageRel data ax (G :: t) (out1 ++ out2)

/-- The executable refinement stage is one admissible behaviour. -/
theorem sweepStage_stageRel (data : List Box) (ax : Axis) :
    ∀ groups, stageRel data ax groups (sweepStage data ax groups) := by
  intro groups
  induction groups with
  | nil => exact stageRel.nil
  | cons G t ih =>
      have h : sweepStage data ax (G :: t) =
          sweeping (segsOf data ax (G.sort (· ≤ ·))) ++ sweepStage data ax t := by
        simp [sweepStage]
      rw [h]
      exact stageRel.cons (sweeping_sweepingRel _) ih

/-- The union of one group's re-sweep is that group, for any admissible
order, provided the group's members index real boxes. -/
theorem sweepingRel_group_union (data : List Box) (ax : Axis)
    (hdata : ∀ b ∈ data, axLo ax b < axHi ax b) (G : Finset ℕ)
    (hGlt : ∀ l ∈ G, l < data.length) {out : List (Finset ℕ)}
    (hout : sweepingRel (segsOf data ax (G.sort (· ≤ ·))) out) :
    out.foldr (· ∪ ·) ∅ = G := by
  have hstrict : ∀ it ∈ segsOf data ax (G.sort (· ≤ ·)), it.lo < it.hi :=
    segsOf_strict data ax hdata _ (fun l hl => hGlt l ((Finset.mem_sort _).mp hl))
  rw [sweepingRel_union _ hstrict hout, segsOf_map_lab, Finset.sort_toFinset]

/-- A refinement stage preserves the union of the groups. -/
theorem stageRel_union (data : List Box) (ax : Axis)
    (hdata : ∀ b ∈ data, axLo ax b < axHi ax b) :
    ∀ {groups out : List (Finset ℕ)}, stageRel data ax groups out →
      (∀ G ∈ groups, ∀ l ∈ G, l < data.length) →
      out.foldr (· ∪ ·) ∅ = groups.foldr (· ∪ ·) ∅ := by
  intro groups out hrel
  induction hrel with
  | nil => intro _; rfl
  | @cons G t out1 out2 h1 h2 ih =>
      intro hb
      rw [foldr_union_append, List.foldr_cons,
        sweepingRel_group_union data ax hdata G (hb G (List.mem_cons_self G t)) h1,
        ih (fun G2 hG2 => hb G2 (List.mem_cons_of_mem G hG2))]

/-- Every group of a re-sweep is contained in the group it refines. -/
theorem sweepingRel_group_subset (data : List Box) (ax : Axis)
    (hdata : ∀ b ∈ data, axLo ax b < axHi ax b) (G : Finset ℕ)
    (hGlt : ∀ l ∈ G, l < data.length) {out : List (Finset ℕ)}
    (hout : sweepingRel (segsOf data ax (G.sort (· ≤ ·))) out)
    {A : Finset ℕ} (hA : A ∈ out) :
    A ⊆ G := by
  have h := subset_foldr_union _ hA
  rw [sweepingRel_group_union data ax hdata G hGlt hout] at h
  exact h

/-- A set disjoint from every member of a list is disjoint from the union. -/
theorem disjoint_foldr_union {A : Finset ℕ} :
    ∀ {L : List (Finset ℕ)}, (∀ B ∈ L, Disjoint A B) →
      Disjoint A (L.foldr (· ∪ ·) ∅) := by
  intro L
  induction L with
  | nil => intro _; simp
  | cons B t ih =>
      intro h
      simp only [List.foldr_cons, Finset.disjoint_union_right]
      exact ⟨h B (List.mem_cons_self B t),
        ih (fun C hC => h C (List.mem_cons_of_mem B hC))⟩

/-- A refinement stage preserves pairwise disjointness of the groups. -/
theorem stageRel_disjoint (data : List Box) (ax : Axis)
    (hdata : ∀ b ∈ data, axLo ax b < axHi ax b) :
    ∀ {groups out : List (Finset ℕ)}, stageRel data ax groups out →
      (∀ G ∈ groups, ∀ l ∈ G, l < data.length) →
      List.Pairwise (fun A B => Disjoint A B) groups →
      List.Pairwise (fun A B => Disjoint A B) out := by
  intro groups out hrel
  induction hrel with
  | nil => intro _ _; exact List.Pairwise.nil
  | @cons G t out1 out2 h1 h2 ih =>
      intro hb hpair
      rw [List.pairwise_append]
      refine ⟨?_, ih (fun G2 hG2 => hb G2 (List.mem_cons_of_mem G hG2))
        hpair.of_cons, ?_⟩
      · exact sweepingRel_disjoint _
          (segsOf_strict data ax hdata _
            (fun l hl => hb G (List.mem_cons_self G t) l ((Finset.mem_sort _).mp hl)))
          (by rw [segsOf_map_lab]; exact Finset.sort_nodup _ G) h1
      · intro A hA B hB
        have hAsub : A ⊆ G := sweepingRel_group_subset data ax hdata G
          (hb G (List.mem_cons_self G t)) h1 hA
        have hBsub : B ⊆ out2.foldr (· ∪ ·) ∅ := subset_foldr_union _ hB
        rw [stageRel_union data ax hdata h2
          (fun G2 hG2 => hb G2 (List.mem_cons_of_mem G hG2))] at hBsub
        have hGdisj : Disjoint G (t.foldr (· ∪ ·) ∅) :=
          disjoint_foldr_union (fun C hC => List.rel_of_pairwise_cons hpair hC)
        exact Finset.disjoint_of_subset_left hAsub
          (Finset.disjoint_of_subset_right hBsub hGdisj)

/-- The list-range and the finset-range agree. -/
theorem toFinset_list_range (n : ℕ) : (List.range n).toFinset = Finset.range n := by
  ext a
  simp

/-- A strict axis overlap between two members of a refined group survives
the refinement stage: both members land in one group of the next stage,
for any admissible orders. -/
theorem stageRel_overlap (data : List Box) (ax : Axis)
    (hdata : ∀ b ∈ data, axLo ax b < axHi ax b) :
    ∀ {groups out : List (Finset ℕ)}, stageRel data ax groups out →
      (∀ G ∈ groups, ∀ l ∈ G, l < data.length) →
      ∀ G ∈ groups, ∀ i j, i ∈ G → j ∈ G →
      axLo ax (data.getD j dBox) < axHi ax (data.getD i dBox) →
      axLo ax (data.getD i dBox) < axHi ax (data.getD j dBox) →
      ∃ G2 ∈ out, i ∈ G2 ∧ j ∈ G2 := by
  intro groups out hrel
  induction hrel with
  | nil =>
      intro _ G hG
      simp at hG
  | @cons G0 t out1 out2 h1 h2 ih =>
      intro hb G hG i j hiG hjG hov1 hov2
      rcases List.mem_cons.mp hG with rfl | hGtail
      · have hGlt : ∀ l ∈ G, l < data.length := hb G (List.mem_cons_self G t)
        have hiS : i ∈ G.sort (· ≤ ·) := (Finset.mem_sort _).mpr hiG
        have hjS : j ∈ G.sort (· ≤ ·) := (Finset.mem_sort _).mpr hjG
        obtain ⟨p, hp⟩ := List.mem_iff_get.mp hiS
        obtain ⟨q, hq⟩ := List.mem_iff_get.mp hjS
        have hpD : (G.sort (· ≤ ·)).getD (p : ℕ) 0 = i := by
          rw [List.getD_eq_get _ _ p.isLt]
          exact hp
        have hqD : (G.sort (· ≤ ·)).getD (q : ℕ) 0 = j := by
          rw [List.getD_eq_get _ _ q.isLt]
          exact hq
        have hseg_p := segsOf_getD data ax (G.sort (· ≤ ·)) (p : ℕ) p.isLt
        have hseg_q := segsOf_getD data ax (G.sort (· ≤ ·)) (q : ℕ) q.isLt
        rw [hpD] at hseg_p
        rw [hqD] at hseg_q
        have h := sweepingRel_overlap (segsOf data ax (G.sort (· ≤ ·)))
          (segsOf_strict data ax hdata _
            (fun l hl => hGlt l ((Finset.mem_sort _).mp hl)))
          (p : ℕ) (q : ℕ)
          (by rw [segsOf_length]; exact p.isLt)
          (by rw [segsOf_length]; exact q.isLt)
          (by rw [hseg_p, hseg_q]; exact hov1)
          (by rw [hseg_p, hseg_q]; exact hov2) h1
        rw [hseg_p, hseg_q] at h
        obtain ⟨G2, hG2, hi2, hj2⟩ := h
        exact ⟨G2, List.mem_append.mpr (Or.inl hG2), hi2, hj2⟩
      · obtain ⟨G2, hG2, hi2, hj2⟩ := ih
          (fun Gx hGx => hb Gx (List.mem_cons_of_mem G0 hGx)) G hGtail
          i j hiG hjG hov1 hov2
        exact ⟨G2, List.mem_append.mpr (Or.inr hG2), hi2, hj2⟩

/-- Two groups of a pairwise-disjoint list that share an element are equal. -/
theorem eq_of_mem_pairwise_disjoint {L : List (Finset ℕ)}
    (hpair : List.Pairwise (fun A B => Disjoint A B) L)
    {G1 G2 : Finset ℕ} (h1 : G1 ∈ L) (h2 : G2 ∈ L) {k : ℕ}
    (hk1 : k ∈ G1) (hk2 : k ∈ G2) : G1 = G2 := by
  obtain ⟨p, hp⟩ := List.mem_iff_get.mp h1
  obtain ⟨q, hq⟩ := List.mem_iff_get.mp h2
  rcases lt_trichotomy p q with h | h | h
  · exfalso
    have hd := List.pairwise_iff_get.mp hpair p q h
    rw [hp, hq] at hd
    exact Finset.disjoint_left.mp hd hk1 hk2
  · rw [← hp, ← hq, h]
  · exfalso
    have hd := List.pairwise_iff_get.mp hpair q p h
    rw [hq, hp] at hd
    exact Finset.disjoint_left.mp hd hk2 hk1

/-- Strict overlap of two boxes on all three axes (a non-empty
intersection interior). -/
def boxesOverlap (a b : Box) : Prop :=
  axLo Axis.x b < axHi Axis.x a ∧ axLo Axis.x a < axHi Axis.x b ∧
  axLo Axis.y b < axHi Axis.y a ∧ axLo Axis.y a < axHi Axis.y b ∧
  axLo Axis.z b < axHi Axis.z a ∧ axLo Axis.z a < axHi Axis.z b

/-- Pairwise strict overlap of the boxes of two object indices. -/
def overlapRel (data : List Box) (i j : ℕ) : Prop :=
  i < data.length ∧ j < data.length ∧
    boxesOverlap (data.getD i dBox) (data.getD j dBox)

/-- Correctness of the three refinement stages at the index level, for any
admissible event orders at every stage: the final groups partition the
index range, and indices related by the reflexive-transitive closure of
strict three-axis overlap share a final group. -/
theorem stage2Rel_props (data : List Box) (n : ℕ) (hn : data.length = n)
    (hdata : ∀ ax, ∀ b ∈ data, axLo ax b < axHi ax b)
    {g0 g1 g2 : List (Finset ℕ)}
    (h0 : sweepingRel (segsOf data Axis.x (List.range n)) g0)
    (h1 : stageRel data Axis.y g0 g1)
    (h2 : stageRel data Axis.z g1 g2) :
    g2.foldr (· ∪ ·) ∅ = Finset.range n ∧
    List.Pairwise (fun A B => Disjoint A B) g2 ∧
    (∀ i j, Relation.ReflTransGen (overlapRel data) i j → i < n →
      ∃ G ∈ g2, i ∈ G ∧ j ∈ G) := by
  have hrange : ∀ l ∈ List.range n, l < data.length := by
    intro l hl
    rw [hn]
    simpa using hl
  have hstrict0 : ∀ it ∈ segsOf data Axis.x (List.range n), it.lo < it.hi :=
    segsOf_strict data Axis.x (hdata Axis.x) _ hrange
  have h0u : g0.foldr (· ∪ ·) ∅ = Finset.range n := by
    rw [sweepingRel_union _ hstrict0 h0, segsOf_map_lab, toFinset_list_range]
  have hb0 : ∀ G ∈ g0, ∀ l ∈ G, l < data.length := by
    intro G hG l hl
    have hsub := subset_foldr_union g0 hG
    rw [h0u] at hsub
    rw [hn]
    exact Finset.mem_range.mp (hsub hl)
  have h1u : g1.foldr (· ∪ ·) ∅ = Finset.range n := by
    rw [stageRel_union data Axis.y (hdata Axis.y) h1 hb0, h0u]
  have hb1 : ∀ G ∈ g1, ∀ l ∈ G, l < data.length := by
    intro G hG l hl
    have hsub := subset_foldr_union g1 hG
    rw [h1u] at hsub
    rw [hn]
    exact Finset.mem_range.mp (hsub hl)
  have h2u : g2.foldr (· ∪ ·) ∅ = Finset.range n := by
    rw [stageRel_union data Axis.z (hdata Axis.z) h2 hb1, h1u]
  have h0d : List.Pairwise (fun A B => Disjoint A B) g0 :=
    sweepingRel_disjoint _ hstrict0
      (by rw [segsOf_map_lab]; exact List.nodup_range _) h0
  have h1d := stageRel_disjoint data Axis.y (hdata Axis.y) h1 hb0 h0d
  have h2d := stageRel_disjoint data Axis.z (hdata Axis.z) h2 hb1 h1d
  have hdirect : ∀ i j, overlapRel data i j → ∃ G ∈ g2, i ∈ G ∧ j ∈ G := by
    intro i j hrel
    obtain ⟨hi, hj, hov⟩ := hrel
    have hi2 : i < n := by omega
    have hj2 : j < n := by omega
    have hri : (List.range n).getD i 0 = i := by
      rw [List.getD_eq_get _ _ (by simpa using hi2)]
      exact List.get_range i _
    have hrj : (List.range n).getD j 0 = j := by
      rw [List.getD_eq_get _ _ (by simpa using hj2)]
      exact List.get_range j _
    have hseg_i := segsOf_getD data Axis.x (List.range n) i
      (by simpa using hi2)
    have hseg_j := segsOf_getD data Axis.x (List.range n) j
      (by simpa using hj2)
    rw [hri] at hseg_i
    rw [hrj] at hseg_j
    have hx := sweepingRel_overlap (segsOf data Axis.x (List.range n))
      hstrict0 i j
      (by rw [segsOf_length, List.length_range]; exact hi2)
      (by rw [segsOf_length, List.length_range]; exact hj2)
      (by rw [hseg_i, hseg_j]; exact hov.1)
      (by rw [hseg_i, hseg_j]; exact hov.2.1) h0
    rw [hseg_i, hseg_j] at hx
    obtain ⟨G0, hG0, hi0, hj0⟩ := hx
    obtain ⟨G1, hG1, hi1, hj1⟩ := stageRel_overlap data Axis.y (hdata Axis.y)
      h1 hb0 G0 hG0 i j hi0 hj0 hov.2.2.1 hov.2.2.2.1
    exact stageRel_overlap data Axis.z (hdata Axis.z) h2 hb1 G1 hG1 i j hi1 hj1
      hov.2.2.2.2.1 hov.2.2.2.2.2
  refine ⟨h2u, h2d, ?_⟩
  intro i j hchain hi
  induction hchain with
  | refl =>
      have hcover : i ∈ g2.foldr (· ∪ ·) ∅ := by
        rw [h2u]
        exact Finset.mem_range.mpr hi
      obtain ⟨G, hG, hmem⟩ := (mem_foldr_union _).mp hcover
      exact ⟨G, hG, hmem, hmem⟩
  | tail _ hstep ih =>
      obtain ⟨G, hG, hiG, hbG⟩ := ih
      obtain ⟨G2, hG2, hbG2, hcG2⟩ := hdirect _ _ hstep
      have hGG : G = G2 := eq_of_mem_pairwise_disjoint h2d hG hG2 hbG hbG2
      exact ⟨G, hG, hiG, hGG ▸ hcG2⟩

/-- The behaviours of `computeCollisionSetsAABB` under the argsort
contract: `(False, None)` on a length mismatch, otherwise the three-stage
refinement with every constituent sweep free to use any admissible event
order. -/
def ccsRel (IDs : List ObjID) (SVs : List BulletData) (aabbs : List ℚ)
    (result : Option (List (List ObjID))) : Prop :=
  if IDs.length ≠ SVs.length then result = none
  else if aabbs.length ≠ IDs.length then result = none
  else ∃ g0 g1 g2,
    sweepingRel (segsOf (mkData SVs aabbs) Axis.x (List.range IDs.length)) g0 ∧
    stageRel (mkData SVs aabbs) Axis.y g0 g1 ∧
    stageRel (mkData SVs aabbs) Axis.z g1 g2 ∧
    result = some (g2.map (fun G => (G.sort (· ≤ ·)).map (fun i => IDs.getD i dObjID)))

/-- The executable `computeCollisionSetsAABB` is one admissible
behaviour. -/
theorem computeCollisionSetsAABB_ccsRel (IDs : List ObjID)
    (SVs : List BulletData) (aabbs : List ℚ) :
    ccsRel IDs SVs aabbs (computeCollisionSetsAABB IDs SVs aabbs) := by
  unfold ccsRel computeCollisionSetsAABB
  by_cases hl1 : IDs.length ≠ SVs.length
  · rw [if_pos hl1, if_pos hl1]
  · rw [if_neg hl1, if_neg hl1]
    by_cases hl2 : aabbs.length ≠ IDs.length
    · rw [if_pos hl2, if_pos hl2]
    · rw [if_neg hl2, if_neg hl2]
      exact ⟨_, _, _, sweeping_sweepingRel _, sweepStage_stageRel _ _ _,
        sweepStage_stageRel _ _ _, rfl⟩

/-- With pairwise-distinct ids, indexing is injective inside the bounds. -/
theorem getD_inj_of_nodup (IDs : List ObjID) (hnodup : IDs.Nodup) :
    ∀ i, i < IDs.length → ∀ j, j < IDs.length →
      IDs.getD i dObjID = IDs.getD j dObjID → i = j := by
  intro i hi j hj hval
  have h1 : IDs.get ⟨i, hi⟩ = IDs.get ⟨j, hj⟩ := by
    rw [List.getD_eq_get IDs dObjID hi, List.getD_eq_get IDs dObjID hj] at hval
    exact hval
  have h2 := (List.Nodup.get_inj_iff hnodup).mp h1
  simpa using h2

/-- C1 (amended): with pairwise-distinct ids and strictly positive radii,
`computeCollisionSetsAABB` succeeds, and under every tie order `np.argsort`
may pick (the executable run being one admissible behaviour) the output
partitions the ids (every id in exactly one group, groups pairwise
disjoint), and any two ids related under the reflexive-transitive closure
of pairwise strict overlap on all three axes land in the same output
group.  The full claimed equivalence fails: boxes that merely touch on an
axis need not share a group (see the counterexample), and a group may also
contain ids that are not related under the closure; with zero radii even
the partition property is lost to the argsort tie order, which is why the
radii are required strictly positive here. -/
theorem C1_computeCollisionSetsAABB (IDs : List ObjID) (SVs : List BulletData)
    (aabbs : List ℚ)
    (hlen1 : SVs.length = IDs.length) (hlen2 : aabbs.length = IDs.length)
    (hnodup : IDs.Nodup) (hrad : ∀ r ∈ aabbs, 0 < r) :
    ccsRel IDs SVs aabbs (computeCollisionSetsAABB IDs SVs aabbs) ∧
    ∀ out, ccsRel IDs SVs aabbs (some out) →
      (∀ a : ObjID, (∃ g ∈ out, a ∈ g) ↔ a ∈ IDs) ∧
      List.Pairwise (fun g1 g2 => ∀ a ∈ g1, a ∉ g2) out ∧
      (∀ i j, i < IDs.length →
        Relation.ReflTransGen (overlapRel (mkData SVs aabbs)) i j →
        ∃ g ∈ out, IDs.getD i dObjID ∈ g ∧ IDs.getD j dObjID ∈ g) := by
  refine ⟨computeCollisionSetsAABB_ccsRel IDs SVs aabbs, ?_⟩
  intro out hrel
  have hn : (mkData SVs aabbs).length = IDs.length := by
    simp [mkData, List.length_zip, hlen1, hlen2]
  unfold ccsRel at hrel
  rw [if_neg (show ¬ IDs.length ≠ SVs.length by omega),
    if_neg (show ¬ aabbs.length ≠ IDs.length by omega)] at hrel
  obtain ⟨g0, g1, g2, h0, h1, h2, hout⟩ := hrel
  obtain ⟨h2u, h2d, hsound⟩ := stage2Rel_props (mkData SVs aabbs) IDs.length hn
    (mkData_strict SVs aabbs hrad) h0 h1 h2
  injection hout with houteq
  subst houteq
  have hsub : ∀ G ∈ g2, G ⊆ Finset.range IDs.length := by
    intro G hG
    rw [← h2u]
    exact subset_foldr_union _ hG
  refine ⟨?_, ?_, ?_⟩
  · intro a
    constructor
    · rintro ⟨g, hg, hag⟩
      obtain ⟨G, hG, rfl⟩ := List.mem_map.mp hg
      obtain ⟨i, hiS, hieq⟩ := List.mem_map.mp hag
      have hiG : i ∈ G := (Finset.mem_sort _).mp hiS
      have hilt : i < IDs.length := Finset.mem_range.mp (hsub G hG hiG)
      rw [← hieq, List.getD_eq_get IDs dObjID hilt]
      exact List.get_mem IDs i hilt
    · intro ha
      obtain ⟨n0, hget⟩ := List.mem_iff_get.mp ha
      have hmemU : (n0 : ℕ) ∈ g2.foldr (· ∪ ·) ∅ := by
        rw [h2u]
        exact Finset.mem_range.mpr n0.isLt
      obtain ⟨G, hG, hnG⟩ := (mem_foldr_union _).mp hmemU
      refine ⟨(G.sort (· ≤ ·)).map (fun i => IDs.getD i dObjID),
        List.mem_map_of_mem _ hG, ?_⟩
      refine List.mem_map.mpr ⟨(n0 : ℕ), (Finset.mem_sort _).mpr hnG, ?_⟩
      rw [List.getD_eq_get IDs dObjID n0.isLt]
      exact hget
  · rw [List.pairwise_map]
    refine h2d.imp_of_mem ?_
    intro G1 G2 hG1 hG2 hdisj a ha1 ha2
    obtain ⟨i, hiS, hieq⟩ := List.mem_map.mp ha1
    obtain ⟨j, hjS, hjeq⟩ := List.mem_map.mp ha2
    have hiG : i ∈ G1 := (Finset.mem_sort _).mp hiS
    have hjG : j ∈ G2 := (Finset.mem_sort _).mp hjS
    have hilt : i < IDs.length := Finset.mem_range.mp (hsub G1 hG1 hiG)
    have hjlt : j < IDs.length := Finset.mem_range.mp (hsub G2 hG2 hjG)
    have hij : i = j := getD_inj_of_nodup IDs hnodup i hilt j hjlt
      (hieq.trans hjeq.symm)
    exact Finset.disjoint_left.mp hdisj hiG (hij ▸ hjG)
  · intro i j hi hchain
    obtain ⟨G, hG, hiG, hjG⟩ := hsound i j hchain hi
    refine ⟨(G.sort (· ≤ ·)).map (fun k => IDs.getD k dObjID),
      List.mem_map_of_mem _ hG, ?_, ?_⟩
    · exact List.mem_map.mpr ⟨i, (Finset.mem_sort _).mpr hiG, rfl⟩
    · exact List.mem_map.mpr ⟨j, (Finset.mem_sort _).mpr hjG, rfl⟩

/-- C8 (amended): for every sweep input whose intervals are strict (start
strictly below end), the running sum maintained by the scan is
non-negative after every event under every admissible argsort order, so
the `assert sumVal >= 0` inside `sweeping` cannot fail.  For intervals
that are merely well-formed in the claimed sense (`start <= end`) the
assertion can fail: the tie order `np.argsort` actually produces on large
event arrays puts end events of zero-width intervals before their own
start events (see the counterexample). -/
theorem C8_sweepAssert_nonneg (items : List Seg)
    (hstrict : ∀ it ∈ items, it.lo < it.hi)
    (E : List SweepEv) (hE : isEventOrder items E) :
    sweepAssertOK E 0 = true :=
  sweepAssertOK_of_inv E 0 ∅ ∅ ∅
    (Finset.range items.length) (sweepInv_initialE items hE hstrict)

/-- Witness for C8 at a concrete input of two strict intervals, with the
event array written out in its admissible order. -/
theorem C8_witness :
    (∀ it ∈ [Seg.mk 0 1 2, Seg.mk 1 2 4], it.lo < it.hi) ∧
    isEventOrder [Seg.mk 0 1 2, Seg.mk 1 2 4]
      [⟨1, 1, 0, 0⟩, ⟨2, -1, 0, 0⟩, ⟨2, 1, 1, 1⟩, ⟨4, -1, 1, 1⟩] ∧
    sweepAssertOK
      [⟨1, 1, 0, 0⟩, ⟨2, -1, 0, 0⟩, ⟨2, 1, 1, 1⟩, ⟨4, -1, 1, 1⟩] 0 = true :=
  ⟨by decide, ⟨by decide, by decide⟩,
    C8_sweepAssert_nonneg [Seg.mk 0 1 2, Seg.mk 1 2 4] (by decide)
      [⟨1, 1, 0, 0⟩, ⟨2, -1, 0, 0⟩, ⟨2, 1, 1, 1⟩, ⟨4, -1, 1, 1⟩]
      ⟨by decide, by decide⟩⟩

/-- The nine intervals of the C8 counterexample: seven zero-width
intervals at coordinate 0 and two at coordinate 1, labels 0 to 8.  Every
interval is well-formed in the claimed sense (start at most end). -/
def cex8Items : List Seg :=
  [⟨0, 0, 0⟩, ⟨1, 0, 0⟩, ⟨2, 0, 0⟩, ⟨3, 0, 0⟩, ⟨4, 0, 0⟩, ⟨5, 0, 0⟩,
   ⟨6, 0, 0⟩, ⟨7, 1, 1⟩, ⟨8, 1, 1⟩]

/-- The event array of `cex8Items` in the order `np.argsort` produces on
its 18 coordinates `[0,0,0,0,0,0,0,0,0,0,0,0,0,0,1,1,1,1]`.  The array
exceeds the 16-element range NumPy hands to insertion sort, so its
quicksort partitions once: the median-of-three comparisons on the equal
keys swap nothing, the pivot entry at slot 8 is parked at slot 16, the
scan pointers then swap slots (1,15), (2,14), (3,13), (4,12), (5,11),
(6,10), (7,9) unconditionally before crossing, and the final insertion
sort keeps the scrambled order of the equal keys.  The resulting index
permutation is `[0,13,12,11,10,9,7,8,5,4,3,2,1,6,16,14,15,17]`, which
places the end events of intervals 6, 5, 4 and 3 ahead of their own start
events. -/
def cex8Events : List SweepEv :=
  [⟨0, 1, 0, 0⟩, ⟨0, -1, 6, 6⟩, ⟨0, 1, 6, 6⟩, ⟨0, -1, 5, 5⟩, ⟨0, 1, 5, 5⟩,
   ⟨0, -1, 4, 4⟩, ⟨0, -1, 3, 3⟩, ⟨0, 1, 4, 4⟩, ⟨0, -1, 2, 2⟩, ⟨0, 1, 2, 2⟩,
   ⟨0, -1, 1, 1⟩, ⟨0, 1, 1, 1⟩, ⟨0, -1, 0, 0⟩, ⟨0, 1, 3, 3⟩, ⟨1, 1, 8, 8⟩,
   ⟨1, 1, 7, 7⟩, ⟨1, -1, 7, 7⟩, ⟨1, -1, 8, 8⟩]

/-- Counterexample to C8: nine well-formed (`start <= end`) intervals
whose event array, in the order `np.argsort` produces for it, drives the
running sum to -1 at the seventh event (the sum runs 1, 0, 1, 0, 1, 0, -1
over `s0, e6, s6, e5, s5, e4, e3`), so `assert sumVal >= 0` fails and
`sweeping` raises.  The claimed invariant therefore does not hold for all
well-formed inputs. -/
theorem C8_counterexample :
    (∀ it ∈ cex8Items, it.lo ≤ it.hi) ∧
    isEventOrder cex8Items cex8Events ∧
    sweepAssertOK cex8Events 0 = false :=
  ⟨by decide, ⟨by decide, by decide⟩, by decide⟩

/-- C9 (amended): for a sweep input with pairwise-distinct labels and
strict intervals, the executable run is an admissible behaviour and every
admissible behaviour (any argsort tie order) returns groups that are
pairwise disjoint with union the set of input labels: every input object
lands in exactly one group and no foreign label appears.  For zero-width
intervals the disjointness fails under the tie order `np.argsort`
actually produces (see the counterexample). -/
theorem C9_sweeping_partition (items : List Seg)
    (hstrict : ∀ it ∈ items, it.lo < it.hi)
    (hnodup : (items.map Seg.lab).Nodup) :
    sweepingRel items (sweeping items) ∧
    ∀ gs, sweepingRel items gs →
      List.Pairwise (fun A B => Disjoint A B) gs ∧
      gs.foldr (· ∪ ·) ∅ = (items.map Seg.lab).toFinset ∧
      (∀ l, (∃ G ∈ gs, l ∈ G) ↔ l ∈ items.map Seg.lab) := by
  refine ⟨sweeping_sweepingRel items, ?_⟩
  intro gs hgs
  have hu := sweepingRel_union items hstrict hgs
  refine ⟨sweepingRel_disjoint items hstrict hnodup hgs, hu, ?_⟩
  intro l
  rw [← mem_foldr_union, hu, List.mem_toFinset]

/-- Witness for C9 at a concrete input of two disjoint labelled strict
intervals. -/
theorem C9_witness :
    (∀ it ∈ [Seg.mk 5 1 2, Seg.mk 7 3 4], it.lo < it.hi) ∧
    ([Seg.mk 5 1 2, Seg.mk 7 3 4].map Seg.lab).Nodup ∧
    (sweepingRel [Seg.mk 5 1 2, Seg.mk 7 3 4]
        (sweeping [Seg.mk 5 1 2, Seg.mk 7 3 4]) ∧
      ∀ gs, sweepingRel [Seg.mk 5 1 2, Seg.mk 7 3 4] gs →
        List.Pairwise (fun A B => Disjoint A B) gs ∧
        gs.foldr (· ∪ ·) ∅ =
          ([Seg.mk 5 1 2, Seg.mk 7 3 4].map Seg.lab).toFinset ∧
        (∀ l, (∃ G ∈ gs, l ∈ G) ↔
          l ∈ [Seg.mk 5 1 2, Seg.mk 7 3 4].map Seg.lab)) :=
  ⟨by decide, by decide,
    C9_sweeping_partition [Seg.mk 5 1 2, Seg.mk 7 3 4] (by decide) (by decide)⟩

/-- The nine intervals of the C9 counterexample: nine distinct labels, all
with the zero-width interval at coordinate 0 (well-formed in the claimed
sense). -/
def cex9Items : List Seg :=
  [⟨0, 0, 0⟩, ⟨1, 0, 0⟩, ⟨2, 0, 0⟩, ⟨3, 0, 0⟩, ⟨4, 0, 0⟩, ⟨5, 0, 0⟩,
   ⟨6, 0, 0⟩, ⟨7, 0, 0⟩, ⟨8, 0, 0⟩]

/-- The event array of `cex9Items` in the order `np.argsort` produces on
18 equal coordinates: one quicksort partition parks the slot-8 pivot entry
at slot 16 and unconditionally swaps slots (1,15), (2,14), (3,13),
(4,12), (5,11), (6,10), (7,9) before the scan pointers cross, and the
final insertion sort keeps equal keys in that scrambled order; the index
permutation is `[0,15,14,13,12,11,10,9,8,7,6,5,4,3,2,1,16,17]`, which
interleaves the start and end events of different intervals. -/
def cex9Events : List SweepEv :=
  [⟨0, 1, 0, 0⟩, ⟨0, -1, 7, 7⟩, ⟨0, 1, 7, 7⟩, ⟨0, -1, 6, 6⟩, ⟨0, 1, 6, 6⟩,
   ⟨0, -1, 5, 5⟩, ⟨0, 1, 5, 5⟩, ⟨0, -1, 4, 4⟩, ⟨0, 1, 4, 4⟩, ⟨0, -1, 3, 3⟩,
   ⟨0, 1, 3, 3⟩, ⟨0, -1, 2, 2⟩, ⟨0, 1, 2, 2⟩, ⟨0, -1, 1, 1⟩, ⟨0, 1, 1, 1⟩,
   ⟨0, -1, 0, 0⟩, ⟨0, 1, 8, 8⟩, ⟨0, -1, 8, 8⟩]

/-- Counterexample to C9: nine well-formed intervals with pairwise-distinct
labels whose event array, in the order `np.argsort` produces for it, makes
the scan emit the overlapping groups `{0,7}, {7,6}, {6,5}, ..., {1,0},
{8}`: the groups are not pairwise disjoint, so the claimed partition
property does not hold for all well-formed inputs. -/
theorem C9_counterexample :
    (∀ it ∈ cex9Items, it.lo ≤ it.hi) ∧
    (cex9Items.map Seg.lab).Nodup ∧
    isEventOrder cex9Items cex9Events ∧
    ¬ List.Pairwise (fun A B => Disjoint A B) (sweepRun cex9Events 0 ∅) :=
  ⟨by decide, by decide, ⟨by decide, by decide⟩, by decide⟩

/-- Closed-interval overlap of two boxes on all three axes: touching
counts as overlapping.  This is the overlap notion of the claim. -/
def boxesOverlapClosed (a b : Box) : Prop :=
  axLo Axis.x b ≤ axHi Axis.x a ∧ axLo Axis.x a ≤ axHi Axis.x b ∧
  axLo Axis.y b ≤ axHi Axis.y a ∧ axLo Axis.y a ≤ axHi Axis.y b ∧
  axLo Axis.z b ≤ axHi Axis.z a ∧ axLo Axis.z a ≤ axHi Axis.z b

/-- The two state vectors of the C1 counterexample: objects at the origin
and at (2, 0, 0), both with bounding radius 1, so their boxes touch at
x = 1 and coincide on y and z. -/
def cex1SVs : List BulletData :=
  [{ defaultBulletData with position := ⟨0, 0, 0⟩ },
   { defaultBulletData with position := ⟨2, 0, 0⟩ }]

/-- Counterexample to C1: the ids are distinct, the radii non-negative and
the two AABBs overlap on all three axes in the closed sense claimed (they
touch at x = 1), yet `computeCollisionSetsAABB` emits them in two separate
groups: the argsort keeps the tied end event of object 0 before the start
event of object 1, so the running sum reaches zero between the two. -/
theorem C1_counterexample :
    ([[1], [2]] : List ObjID).Nodup ∧
    (∀ r ∈ ([1, 1] : List ℚ), 0 ≤ r) ∧
    boxesOverlapClosed ((mkData cex1SVs [1, 1]).getD 0 dBox)
      ((mkData cex1SVs [1, 1]).getD 1 dBox) ∧
    computeCollisionSetsAABB [[1], [2]] cex1SVs [1, 1] = some [[[1]], [[2]]] ∧
    ¬ (∃ g ∈ [[[1]], [[2]]], ([1] : ObjID) ∈ g ∧ ([2] : ObjID) ∈ g) := by
  refine ⟨by decide, by decide, ?_, ?_, by decide⟩
  · norm_num [boxesOverlapClosed, mkData, mkBox, cex1SVs, defaultBulletData,
      axLo, axHi]
  · norm_num [computeCollisionSetsAABB, mkData, mkBox, cex1SVs,
      defaultBulletData, sweepStage, segsOf, sweeping, sortEvents, mkEvents,
      mkEventsFrom, startEv, endEv, List.insertionSort, List.orderedInsert,
      evLE, sweepRun, axLo, axHi,
      show List.range 2 = [0, 1] from rfl, dObjID]

/-- The three state vectors of the C1 witness, in a strictly overlapping
chain along x. -/
def wtns1SVs : List BulletData :=
  [{ defaultBulletData with position := ⟨0, 0, 0⟩ },
   { defaultBulletData with position := ⟨1, 0, 0⟩ },
   { defaultBulletData with position := ⟨2, 0, 0⟩ }]

/-- Witness for the amended C1 at a concrete input of three objects with
distinct ids and unit radii. -/
theorem C1_witness :
    ([[1], [2], [3]] : List ObjID).Nodup ∧
    (∀ r ∈ ([1, 1, 1] : List ℚ), 0 < r) ∧
    (ccsRel [[1], [2], [3]] wtns1SVs [1, 1, 1]
        (computeCollisionSetsAABB [[1], [2], [3]] wtns1SVs [1, 1, 1]) ∧
      ∀ out, ccsRel [[1], [2], [3]] wtns1SVs [1, 1, 1] (some out) →
        (∀ a : ObjID, (∃ g ∈ out, a ∈ g) ↔ a ∈ ([[1], [2], [3]] : List ObjID)) ∧
        List.Pairwise (fun g1 g2 => ∀ a ∈ g1, a ∉ g2) out ∧
        (∀ i j, i < ([[1], [2], [3]] : List ObjID).length →
          Relation.ReflTransGen (overlapRel (mkData wtns1SVs [1, 1, 1])) i j →
          ∃ g ∈ out, ([[1], [2], [3]] : List ObjID).getD i dObjID ∈ g ∧
            ([[1], [2], [3]] : List ObjID).getD j dObjID ∈ g)) :=
  ⟨by decide, by decide,
    C1_computeCollisionSetsAABB [[1], [2], [3]] wtns1SVs [1, 1, 1]
      rfl rfl (by decide) (by decide)⟩
